import Mathlib

/-! # scuff-heat: the frequency-sweep driver of `scuff-heat.cc`

A shallow embedding of `main` in `src/applications/scuff-heat/scuff-heat.cc`.

* The variables filled in by `ProcessOptions` are the fields of `Options`.
* The calls `main` makes to code outside the file (`Log`, `CreateSHData`,
  `PreloadCache`, `GetFrequencyIntegrand`, ...) are recorded, in program order,
  as `Event`s; a run is the list of its events plus the way it ended.
* A `double` is an exact rational, an infinity or NaN, compared as the machine
  compares them; rounding and the sign of zero are outside the model.
-/

namespace ScuffHeat

/-! ## Data model -/

/-- The values of type `double`: a number, an infinity, or NaN. -/
inductive double where
  | num (q : ℚ)
  | posInf
  | negInf
  | nan
deriving DecidableEq

/-- The comparison `a < b` of two doubles: false when either is NaN. -/
def double.lt : double → double → Bool
  | .num a, .num b => decide (a < b)
  | .num _, .posInf => true
  | .negInf, .num _ => true
  | .negInf, .posInf => true
  | _, _ => false

/-- The comparison `a == b` of two doubles: false when either is NaN. -/
def double.eq : double → double → Bool
  | .nan, _ => false
  | _, .nan => false
  | a, b => decide (a = b)

/-- The comparison `a != b` of two doubles: true when either is NaN. -/
def double.ne (a b : double) : Bool := !(double.eq a b)

/-- The comparison `a <= b` of two doubles: false when either is NaN. -/
def double.le (a b : double) : Bool := double.lt a b || double.eq a b

/-- The type `cdouble` (`std::complex<double>`). -/
structure cdouble where
  re : double
  im : double
deriving DecidableEq

/-- Conversion of a real `double` to `cdouble`, as in `OmegaMin=0.0`. -/
def cdouble.ofReal (x : ℚ) : cdouble := ⟨.num x, .num 0⟩

/-- The function `real(z)`. -/
def real (z : cdouble) : double := z.re

/-- The function `imag(z)`. -/
def imag (z : cdouble) : double := z.im

/-- The comparison `z == x` of a `cdouble` with a real `double`:
`real(z) == x && imag(z) == 0`. -/
def cdouble.eqReal (z : cdouble) (x : double) : Bool :=
  double.eq z.re x && double.eq z.im (.num 0)

/-- The constant `MAXFREQ` (line 160): max number of frequencies. -/
def MAXFREQ : Nat := 10

/-- The constant `MAXCACHE` (line 161): max number of cache files for preload. -/
def MAXCACHE : Nat := 10

/-- The class `HVector` of libhmat, as far as `main` uses it: the entries
(their number is the member `N`) and the member `ErrMsg`, which is non-null
when the constructor that reads a file failed. -/
structure HVector where
  entries : List cdouble
  ErrMsg : Option String
deriving DecidableEq

/-- The member `N`. -/
def HVector.N (v : HVector) : Nat := v.entries.length

/-- The constructor `new HVector(N, LHM_COMPLEX)`: a zeroed vector of `N` entries. -/
def HVector.new (N : Nat) : HVector := ⟨List.replicate N (cdouble.ofReal 0), none⟩

/-- The method `v->GetEntry(n)`. -/
def HVector.GetEntry (v : HVector) (n : Nat) : cdouble := v.entries.getD n (cdouble.ofReal 0)

/-- The method `v->SetEntry(n, z)`. -/
def HVector.SetEntry (v : HVector) (n : Nat) (z : cdouble) : HVector :=
  { v with entries := v.entries.set n z }

/-- The local variables of `main` that `ProcessOptions` fills in (lines 175-189).
A `char *` is `none` when it is the null pointer.  An array with its instance
count (`OmegaVals`/`nOmegaVals`, `ReadCache`/`nReadCache`) is the list of the
stored values, the count being its length. -/
structure Options where
  GeoFile : Option String
  TransFile : Option String
  OmegaMin : cdouble
  nOmegaMin : Nat
  OmegaMax : cdouble
  nOmegaMax : Nat
  OmegaVals : List cdouble
  OmegaFile : String
  nOmegaFiles : Nat
  ByOmegaFile : Option String
  PlotFlux : Int
  OutputFile : Option String
  LogFile : Option String
  Cache : Option String
  ReadCache : List String
  WriteCache : Option String
  nThread : Int

/-- The count `nOmegaVals`. -/
def Options.nOmegaVals (o : Options) : Nat := o.OmegaVals.length

/-- The count `nReadCache`. -/
def Options.nReadCache (o : Options) : Nat := o.ReadCache.length

/-- What `ProcessOptions` leaves in the variables, read off the initialisers
in lines 177-178 and the `max_instances` column of `OSArray` (lines 192-205):
`--OmegaMin` and `--OmegaMax` are given at most once, a variable whose option
was not given keeps its initial value (`0.0`, `-1.0`), `--OmegaFile` is given
at most once, `--Omega` at most `MAXFREQ` times and `--ReadCache` at most
`MAXCACHE` times. -/
def Options.Processed (o : Options) : Prop :=
  o.nOmegaMin ≤ 1 ∧ o.nOmegaMax ≤ 1 ∧
  (o.nOmegaMin = 0 → o.OmegaMin = cdouble.ofReal 0) ∧
  (o.nOmegaMax = 0 → o.OmegaMax = cdouble.ofReal (-1)) ∧
  o.nOmegaFiles ≤ 1 ∧ o.OmegaVals.length ≤ MAXFREQ ∧ o.ReadCache.length ≤ MAXCACHE

instance (o : Options) : Decidable o.Processed := by
  unfold Options.Processed; infer_instance

/-- What `main` reads from outside the process: the vector that
`new HVector(OmegaFile, LHM_TEXT)` builds for a file name, the member
`NumTransformations` of the structure that `CreateSHData` returns, and the
pointer that `new double[SHD->NumTransformations]` returns (line 303). -/
structure Env where
  readHVector : String → HVector
  NumTransformations : Nat
  newI : Nat

/-- The calls `main` makes, in program order.  `NewI n I` is the allocation
`I = new double[n]`, `I` being the pointer returned; `GetFrequencyIntegrand`
and `DeleteI` carry the pointer they are passed. -/
inductive Event where
  | SetLogFileName (name : String)
  | LogRunning
  | LogReadFile (n : Nat) (file : String)
  | LogReadCommandLine (n : Nat)
  | LogComputing (n : Nat)
  | LogRangeInfinity (lo : double)
  | LogRange (lo hi : double)
  | CreateSHData (GeoFile : Option String) (TransFile : Option String) (PlotFlux : Int)
      (ByOmegaFile : Option String) (nThread : Int)
  | PreloadCache (file : String)
  | SetWriteCache (file : Option String)
  | NewI (n : Nat) (I : Nat)
  | GetFrequencyIntegrand (Omega : cdouble) (I : Nat)
  | DeleteI (I : Nat)
  | Printf
deriving DecidableEq

/-- The ways `main` stops early: one constructor per `OSUsage`/`ErrExit` call
site, and `NullOmegaList` for a dereference of a null `OmegaList`. -/
inductive Failure where
  | GeometryMandatory
  | CacheWriteCacheExclusive
  | PlotFluxByOmegaFileExclusive
  | OmegaFileErrMsg (msg : String)
  | RangeWithDiscrete
  | InvalidOmegaMin
  | InvalidOmegaMax
  | NotImplemented
  | NullOmegaList
deriving DecidableEq

/-- The message each failure prints. -/
def Failure.message : Failure → String
  | .GeometryMandatory => "--geometry option is mandatory"
  | .CacheWriteCacheExclusive => "--cache and --writecache options are mutually exclusive"
  | .PlotFluxByOmegaFileExclusive => "--PlotFlux and --ByOmegaFile options are mutually exclusive"
  | .OmegaFileErrMsg msg => msg
  | .RangeWithDiscrete => "--OmegaMin/--OmegaMax options may not be used with --Omega/--OmegaFile"
  | .InvalidOmegaMin => "invalid value specified for --OmegaMin"
  | .InvalidOmegaMax => "invalid value specified for --OmegaMax"
  | .NotImplemented => "frequency integration is not yet implemented"
  | .NullOmegaList => "(null pointer dereference)"

/-- A run of `main`: the calls made, and `none` when it reached the end of
`main`, `some f` when it stopped with failure `f`. -/
structure Run where
  trace : List Event
  exit : Option Failure
deriving DecidableEq

/-! ## The sections of `main` -/

/-- Lines 210-217: the checks on the option combination. -/
def checkOptions (o : Options) : Option Failure :=
  if o.GeoFile = none then some .GeometryMandatory
  else if o.Cache ≠ none ∧ o.WriteCache ≠ none then some .CacheWriteCacheExclusive
  else if o.PlotFlux ≠ 0 ∧ o.ByOmegaFile ≠ none then some .PlotFluxByOmegaFileExclusive
  else none

/-- Lines 219-224: the log file is named and the first line logged. -/
def startLog (o : Options) : List Event :=
  [match o.LogFile with
   | some f => Event.SetLogFileName f
   | none => Event.SetLogFileName "scuff-heat.log",
   Event.LogRunning]

/-- The values of `OmegaList`, `NumFreqs` and the log lines written, after a
part of lines 230-256. -/
structure Freqs where
  OmegaList : Option HVector
  NumFreqs : Nat
  log : List Event
deriving DecidableEq

/-- Lines 230-239: the `--OmegaFile` option. -/
def readOmegaFile (env : Env) (o : Options) : Except Failure Freqs :=
  if o.nOmegaFiles = 1 then
    let OmegaList := env.readHVector o.OmegaFile
    match OmegaList.ErrMsg with
    | some msg => .error (.OmegaFileErrMsg msg)
    | none => .ok ⟨some OmegaList, OmegaList.N, [.LogReadFile OmegaList.N o.OmegaFile]⟩
  else .ok ⟨none, 0, []⟩

/-- Lines 249-250: `for(nFreq=0; nFreq<OmegaList0->N; nFreq++)
OmegaList->SetEntry(nFreq, OmegaList0->GetEntry(nFreq));`. -/
def copyLoop (OmegaList0 OmegaList : HVector) : HVector :=
  (List.range OmegaList0.N).foldl
    (fun L nFreq => L.SetEntry nFreq (OmegaList0.GetEntry nFreq)) OmegaList

/-- Lines 253-254: `for(nOV=0; nOV<nOmegaVals; nOV++)
OmegaList->SetEntry(nFreq+nOV, OmegaVals[nOV]);`. -/
def appendLoop (OmegaVals : List cdouble) (nFreq : Nat) (OmegaList : HVector) : HVector :=
  (List.range OmegaVals.length).foldl
    (fun L nOV => L.SetEntry (nFreq + nOV) (OmegaVals.getD nOV (cdouble.ofReal 0))) OmegaList

/-- Lines 241-256: the `--Omega` options are added after the file entries. -/
def addOmegaVals (o : Options) (s : Freqs) : Freqs :=
  if o.nOmegaVals > 0 then
    let NumFreqs := s.NumFreqs + o.nOmegaVals
    let OmegaList0 := s.OmegaList
    let OmegaList := HVector.new NumFreqs
    let copied : HVector × Nat :=
      match OmegaList0 with
      | some L0 => (copyLoop L0 OmegaList, L0.N)
      | none => (OmegaList, 0)
    let OmegaList := appendLoop o.OmegaVals copied.2 copied.1
    ⟨some OmegaList, NumFreqs, s.log ++ [.LogReadCommandLine o.nOmegaVals]⟩
  else s

/-- Lines 230-256: the frequency list. -/
def buildOmegaList (env : Env) (o : Options) : Except Failure Freqs :=
  match readOmegaFile env o with
  | .error f => .error f
  | .ok s => .ok (addOmegaVals o s)

/-- Lines 258-279: a list and a range exclude each other; the range is checked. -/
def checkFrequencyMode (o : Options) (NumFreqs : Nat) : Except Failure (List Event) :=
  if NumFreqs > 0 then
    if o.nOmegaMin > 0 ∨ o.nOmegaMax > 0 then .error .RangeWithDiscrete
    else .ok [.LogComputing NumFreqs]
  else if NumFreqs = 0 then
    if o.nOmegaMin = 1 ∧ (double.lt (real o.OmegaMin) (.num 0)
        ∨ double.ne (imag o.OmegaMin) (.num 0)) then
      .error .InvalidOmegaMin
    else if o.nOmegaMax = 1 ∧ (double.lt (real o.OmegaMax) (real o.OmegaMin)
        ∨ double.ne (imag o.OmegaMax) (.num 0)) then
      .error .InvalidOmegaMax
    else if cdouble.eqReal o.OmegaMax (.num (-1)) then
      .ok [.LogRangeInfinity (real o.OmegaMin)]
    else
      .ok [.LogRange (real o.OmegaMin) (real o.OmegaMax)]
  else .ok []

/-- Lines 230-279 together: the frequency list, then the mode check. -/
def frequencyOptions (env : Env) (o : Options) : Except Failure Freqs :=
  match buildOmegaList env o with
  | .error f => .error f
  | .ok s =>
    match checkFrequencyMode o s.NumFreqs with
    | .error f => .error f
    | .ok log => .ok { s with log := s.log ++ log }

/-- Lines 291-294: the cache files are preloaded. -/
def preloadCaches (o : Options) : List Event :=
  (List.range o.nReadCache).map (fun nrc => Event.PreloadCache (o.ReadCache.getD nrc ""))
    ++ (match o.Cache with
        | some c => [Event.PreloadCache c]
        | none => [])

/-- Lines 296-297: `if (Cache) WriteCache=Cache; SHD->WriteCache = WriteCache;`. -/
def writeCacheOf (o : Options) : Option String :=
  match o.Cache with
  | some c => some c
  | none => o.WriteCache

/-- Lines 305-306: `for (nFreq=0; nFreq<NumFreqs; nFreq++)
GetFrequencyIntegrand(SHD, OmegaList->GetEntry(nFreq), I);`. -/
def sweepLoop (OmegaList : HVector) (NumFreqs I : Nat) : List Event :=
  (List.range NumFreqs).map
    (fun nFreq => Event.GetFrequencyIntegrand (OmegaList.GetEntry nFreq) I)

/-- Lines 303-317: the buffer `I`, the sweep, the closing message. -/
def sweep (env : Env) (s : Freqs) : Run :=
  let I := env.newI
  let newI := Event.NewI env.NumTransformations I
  if s.NumFreqs > 0 then
    match s.OmegaList with
    | some OmegaList =>
      ⟨[newI] ++ sweepLoop OmegaList s.NumFreqs I ++ [.DeleteI I, .Printf], none⟩
    | none => ⟨[newI], some .NullOmegaList⟩
  else ⟨[newI], some .NotImplemented⟩

/-- The function `main` (lines 168-319), after `ProcessOptions`.  A run that
stops in an `ErrExit` has made the calls that precede it: the log lines of
lines 238 and 255 precede the `ErrExit` calls of lines 263, 271 and 273. -/
def main (env : Env) (o : Options) : Run :=
  match checkOptions o with
  | some f => ⟨[], some f⟩
  | none =>
    match buildOmegaList env o with
    | .error f => ⟨startLog o, some f⟩
    | .ok s =>
      match checkFrequencyMode o s.NumFreqs with
      | .error f => ⟨startLog o ++ s.log, some f⟩
      | .ok log =>
        let r := sweep env s
        ⟨startLog o ++ s.log ++ log
          ++ [.CreateSHData o.GeoFile o.TransFile o.PlotFlux o.ByOmegaFile o.nThread]
          ++ preloadCaches o ++ [.SetWriteCache (writeCacheOf o)] ++ r.trace, r.exit⟩

/-! ## Observations on a run -/

/-- The entries of `OmegaList`; a null `OmegaList` has none. -/
def Freqs.list (s : Freqs) : List cdouble :=
  match s.OmegaList with
  | some L => L.entries
  | none => []

/-- The entries of the `--OmegaFile` vector; none when the option is absent. -/
def fileEntries (env : Env) (o : Options) : List cdouble :=
  if o.nOmegaFiles = 1 then (env.readHVector o.OmegaFile).entries else []

/-- The frequency file, when one is given, is read without an error message. -/
def FileLoads (env : Env) (o : Options) : Prop :=
  o.nOmegaFiles = 1 → (env.readHVector o.OmegaFile).ErrMsg = none

instance (env : Env) (o : Options) : Decidable (FileLoads env o) := by
  unfold FileLoads; infer_instance

/-- The number of file entries plus the number of `--Omega` values. -/
def mergedCount (env : Env) (o : Options) : Nat :=
  (fileEntries env o).length + o.nOmegaVals

/-- The two `ErrExit` calls of the range check (lines 271 and 273). -/
def Failure.InvalidRangeBound (f : Failure) : Prop :=
  f = .InvalidOmegaMin ∨ f = .InvalidOmegaMax

/-- The frequencies passed to `GetFrequencyIntegrand`, in call order. -/
def evaluatorCalls (t : List Event) : List cdouble :=
  t.filterMap (fun ev =>
    match ev with
    | .GetFrequencyIntegrand Omega _ => some Omega
    | _ => none)

/-- The buffer pointers passed to `GetFrequencyIntegrand`, in call order. -/
def evaluatorBuffers (t : List Event) : List Nat :=
  t.filterMap (fun ev =>
    match ev with
    | .GetFrequencyIntegrand _ I => some I
    | _ => none)

/-- The result buffers allocated (`new double[...]`): length and pointer. -/
def resultBuffers (t : List Event) : List (Nat × Nat) :=
  t.filterMap (fun ev =>
    match ev with
    | .NewI n I => some (n, I)
    | _ => none)

/-- The files passed to `PreloadCache`, in call order. -/
def preloadCalls (t : List Event) : List String :=
  t.filterMap (fun ev =>
    match ev with
    | .PreloadCache file => some file
    | _ => none)

/-- The number of `CreateSHData` calls. -/
def createCalls (t : List Event) : Nat :=
  t.countP (fun ev =>
    match ev with
    | .CreateSHData _ _ _ _ _ => true
    | _ => false)

/-- The integration ranges logged (lines 276 and 278): the lower bound, and the
upper bound, `none` standing for `infinity`. -/
def loggedRanges (t : List Event) : List (double × Option double) :=
  t.filterMap (fun ev =>
    match ev with
    | .LogRangeInfinity lo => some (lo, none)
    | .LogRange lo hi => some (lo, some hi)
    | _ => none)

/-- The options of a run with only `--geometry g`. -/
def geometryOnly : Options :=
  { GeoFile := some "g", TransFile := none,
    OmegaMin := cdouble.ofReal 0, nOmegaMin := 0,
    OmegaMax := cdouble.ofReal (-1), nOmegaMax := 0,
    OmegaVals := [], OmegaFile := "", nOmegaFiles := 0,
    ByOmegaFile := none, PlotFlux := 0, OutputFile := none, LogFile := none,
    Cache := none, ReadCache := [], WriteCache := none, nThread := 0 }

/-- An environment whose frequency files all hold `1+0i, 2+0i`, whose geometry
has two transformations, and where the buffer `I` is at address 4096. -/
def sampleEnv : Env :=
  { readHVector := fun _ => ⟨[cdouble.ofReal 1, cdouble.ofReal 2], none⟩,
    NumTransformations := 2, newI := 4096 }

/-- The options `--geometry g --OmegaFile freqs --Omega 3+0i`. -/
def fileAndOmega3 : Options :=
  { geometryOnly with OmegaFile := "freqs", nOmegaFiles := 1, OmegaVals := [cdouble.ofReal 3] }

/-- The options `--geometry g --OmegaFile freqs --Omega 3+0i --OmegaMin 0`. -/
def fileOmega3AndMin : Options :=
  { fileAndOmega3 with nOmegaMin := 1 }

/-- The options `--geometry g --OmegaMin 5 --OmegaMax 2`. -/
def min5Max2 : Options :=
  { geometryOnly with
    OmegaMin := cdouble.ofReal 5, nOmegaMin := 1, OmegaMax := cdouble.ofReal 2, nOmegaMax := 1 }

/-- The options `--geometry g --OmegaMin 0`. -/
def min0Only : Options :=
  { geometryOnly with OmegaMin := cdouble.ofReal 0, nOmegaMin := 1 }

/-- The options `--geometry g --Omega 1+0i --Omega 2+0i --Omega 3+0i`. -/
def threeOmegas : Options :=
  { geometryOnly with OmegaVals := [cdouble.ofReal 1, cdouble.ofReal 2, cdouble.ofReal 3] }

/-- The options `--geometry g --Cache c --WriteCache w --Omega 1+0i`. -/
def cacheAndWriteCache : Options :=
  { geometryOnly with Cache := some "c", WriteCache := some "w", OmegaVals := [cdouble.ofReal 1] }

/-- The options `--geometry g --ReadCache r0 --ReadCache r1 --Cache c --Omega 1+0i`. -/
def twoReadCaches : Options :=
  { geometryOnly with
    ReadCache := ["r0", "r1"], Cache := some "c", OmegaVals := [cdouble.ofReal 1] }

/-- The values stored into `SHD->WriteCache` (line 297), in program order. -/
def writeCacheStores (t : List Event) : List (Option String) :=
  t.filterMap (fun ev =>
    match ev with
    | .SetWriteCache file => some file
    | _ => none)

/-- The options `--geometry g --OmegaFile freqs --Omega 1+0i`. -/
def fileAndOmega1 : Options :=
  { geometryOnly with OmegaFile := "freqs", nOmegaFiles := 1, OmegaVals := [cdouble.ofReal 1] }

/-- The options `--geometry g --Cache c --Omega 1+0i`. -/
def cacheOnly : Options :=
  { geometryOnly with Cache := some "c", OmegaVals := [cdouble.ofReal 1] }

/-- The options `o` with `--Cache X` given and no `--WriteCache`. -/
def Options.withCache (o : Options) (X : String) : Options :=
  { o with Cache := some X, WriteCache := none }

/-- The options `o` without `--Cache`, with `X` added as last `--ReadCache` file
and given as `--WriteCache` file. -/
def Options.withReadWriteCache (o : Options) (X : String) : Options :=
  { o with Cache := none, ReadCache := o.ReadCache ++ [X], WriteCache := some X }

/-- The options `--geometry g --OmegaMin nan`. -/
def minNaN : Options :=
  { geometryOnly with OmegaMin := ⟨.nan, .num 0⟩, nOmegaMin := 1 }

/-- The options `--geometry g --OmegaMin nan --OmegaMax -1`. -/
def minNaNMaxMinus1 : Options :=
  { geometryOnly with
    OmegaMin := ⟨.nan, .num 0⟩, nOmegaMin := 1, OmegaMax := cdouble.ofReal (-1), nOmegaMax := 1 }

/-- The events that are log calls. -/
def Event.isLog : Event → Bool
  | .SetLogFileName _ => true
  | .LogRunning => true
  | .LogReadFile _ _ => true
  | .LogReadCommandLine _ => true
  | .LogComputing _ => true
  | .LogRangeInfinity _ => true
  | .LogRange _ _ => true
  | _ => false

end ScuffHeat

namespace scuff

/-! # libscuff: the vector routines and helpers of `scuffMisc.cc`

A `double` is an element of a field `K` (exact arithmetic); `sqrt` of libm is a
parameter.  Memory is a map from cell addresses to values, a `double *v` is the
address of `v[0]`, so that a call can be given overlapping buffers.  A quotient
whose divisor is zero has no value over exact arithmetic: `divide` returns
`none` there, and a call that evaluates such a quotient among other statements
ends in `Outcome.divisionByZero`, which is not the report of an error.
-/

/-- The cells of type `double`, by address. -/
abbrev Mem (K : Type) := Nat → K

/-- The assignment `*a = x`. -/
def store {K : Type} (m : Mem K) (a : Nat) (x : K) : Mem K :=
  fun b => if b = a then x else m b

/-- The three values `v[0], v[1], v[2]`. -/
def load {K : Type} (m : Mem K) (v : Nat) : K × K × K :=
  (m v, m (v + 1), m (v + 2))

/-- The buffers `a[0..2]` and `b[0..2]` share no cell. -/
def Separate (a b : Nat) : Prop := a + 3 ≤ b ∨ b + 3 ≤ a

instance (a b : Nat) : Decidable (Separate a b) := by
  unfold Separate; infer_instance

/-- The quotient `a / d` over exact arithmetic: no value when `d` is zero. -/
def divide {K : Type} [Field K] [DecidableEq K] (a d : K) : Option K :=
  if d = 0 then none else some (a / d)

/-- Lines 61-67: `VecSub(v1, v2, v3)`, `v3 = v1 - v2`; the memory after the call. -/
def VecSub {K : Type} [Field K] (m : Mem K) (v1 v2 v3 : Nat) : Mem K :=
  let m := store m (v3 + 0) (m (v1 + 0) - m (v2 + 0))
  let m := store m (v3 + 1) (m (v1 + 1) - m (v2 + 1))
  let m := store m (v3 + 2) (m (v1 + 2) - m (v2 + 2))
  m

/-- Lines 77-83: `VecCross(v1, v2, v3)`, `v3 = v1 \times v2`; the memory after
the call, the three assignments made in program order. -/
def VecCross {K : Type} [Field K] (m : Mem K) (v1 v2 v3 : Nat) : Mem K :=
  let m := store m (v3 + 0) (m (v1 + 1) * m (v2 + 2) - m (v1 + 2) * m (v2 + 1))
  let m := store m (v3 + 1) (m (v1 + 2) * m (v2 + 0) - m (v1 + 0) * m (v2 + 2))
  let m := store m (v3 + 2) (m (v1 + 0) * m (v2 + 1) - m (v1 + 1) * m (v2 + 0))
  m

/-- Lines 85-87: `VecDot(v1, v2)`. -/
def VecDot {K : Type} [Field K] (m : Mem K) (v1 v2 : Nat) : K :=
  m (v1 + 0) * m (v2 + 0) + m (v1 + 1) * m (v2 + 1) + m (v1 + 2) * m (v2 + 2)

/-- Lines 89-90: `VecNorm2(v)`. -/
def VecNorm2 {K : Type} [Field K] (m : Mem K) (v : Nat) : K :=
  VecDot m v v

/-- Lines 92-93: `VecNorm(v)`. -/
def VecNorm {K : Type} [Field K] (sqrt : K → K) (m : Mem K) (v : Nat) : K :=
  sqrt (VecDot m v v)

/-- Lines 95-99: `VecDistance(v1, v2)`; `v3` is the address of the local array
`double v3[3]`. -/
def VecDistance {K : Type} [Field K] (sqrt : K → K) (m : Mem K) (v1 v2 v3 : Nat) : K :=
  let m := VecSub m v1 v2 v3
  VecNorm sqrt m v3

/-- Lines 101-105: `VecDistance2(v1, v2)`; `v3` is the address of the local
array `double v3[3]`. -/
def VecDistance2 {K : Type} [Field K] (m : Mem K) (v1 v2 v3 : Nat) : K :=
  let m := VecSub m v1 v2 v3
  VecDot m v3 v3

/-- How a call ends over exact arithmetic: it returns a value; or it evaluates
a quotient whose divisor is zero, which has no value; or it reports an error
and exits, as `RWGErrExit` does. -/
inductive Outcome (α : Type) where
  | value (a : α)
  | divisionByZero
  | exited (message : String)

/-- Sequencing: the statements after one that has no value are not modelled. -/
def Outcome.bind {α β : Type} (x : Outcome α) (f : α → Outcome β) : Outcome β :=
  match x with
  | .value a => f a
  | .divisionByZero => .divisionByZero
  | .exited message => .exited message

/-- The assignment `*a /= d`. -/
def divAssign {K : Type} [Field K] [DecidableEq K] (m : Mem K) (a : Nat) (d : K) :
    Outcome (Mem K) :=
  match divide (m a) d with
  | some q => .value (store m a q)
  | none => .divisionByZero

/-- Lines 107-113: `VecNormalize(v)`; the value returned and the memory after
the call. -/
def VecNormalize {K : Type} [Field K] [DecidableEq K] (sqrt : K → K) (m : Mem K) (v : Nat) :
    Outcome (K × Mem K) :=
  let d := VecNorm sqrt m v
  (divAssign m (v + 0) d).bind fun m =>
  (divAssign m (v + 1) d).bind fun m =>
  (divAssign m (v + 2) d).bind fun m =>
  .value (d, m)

/-- Lines 121-122: `RelDiff(x, y)`. -/
def RelDiff {K : Type} [LinearOrderedField K] (x y : K) : Option K :=
  divide (2 * |x - y|) (|x| + |y|)

/-- The ways a call of `mallocEC` ends: it returns a pointer, or the process
exits in `RWGErrExit` with a message. -/
inductive Ended where
  | returned (p : Nat)
  | exited (message : String)
deriving DecidableEq

/-- Lines 127-139: `RWGErrExit(format)` prints the message and calls `exit(1)`. -/
def RWGErrExit (format : String) : Ended := .exited format

/-- Lines 144-150: `mallocEC(size)`, run with at most `depth` nested calls;
`none` when that depth does not suffice for the call to end. -/
def mallocEC : (depth : Nat) → (size : Int) → Option Ended
  | 0, _ => none
  | depth + 1, size =>
    match mallocEC depth size with
    | none => none
    | some (.exited message) => some (.exited message)
    | some (.returned p) =>
      if p = 0 then some (RWGErrExit "out of memory")
      else some (.returned p)

/-- The memory holding `1, 0, 0` at address 0 and `0, 1, 0` at address 3. -/
def unitVectors : Mem ℚ :=
  fun a => if a = 0 then 1 else if a = 4 then 1 else 0

/-- The memory holding `3, 4, 0` at address 0 and `0, 0, 0` at address 3. -/
def threeFour {K : Type} [Field K] : Mem K :=
  fun a => if a = 0 then 3 else if a = 1 then 4 else 0

/-- A square root on the rationals, right at `25`. -/
def sqrt25 (x : ℚ) : ℚ := if x = 25 then 5 else 0

/-- The cross product `a x b` of two triples of values, by components. -/
def crossProduct {K : Type} [Field K] (a b : K × K × K) : K × K × K :=
  (a.2.1 * b.2.2 - a.2.2 * b.2.1, a.2.2 * b.1 - a.1 * b.2.2, a.1 * b.2.1 - a.2.1 * b.1)

end scuff

namespace ScuffHeat

/-! ## Loops over an index -/

theorem map_getD_range {α : Type} (l : List α) (d : α) :
    (List.range l.length).map (fun i => l[i]?.getD d) = l := by
  apply List.ext_getElem
  · simp
  · intro i h1 h2
    simp [List.getElem?_eq_getElem h2]

theorem foldl_set_range (g : Nat → cdouble) (off : Nat) :
    ∀ (n : Nat) (l : List cdouble), off + n ≤ l.length →
      (List.range n).foldl (fun L i => L.set (off + i) (g i)) l
        = l.take off ++ (List.range n).map g ++ l.drop (off + n) := by
  intro n
  induction n with
  | zero => intro l _; simp
  | succ n ih =>
    intro l h
    rw [List.range_succ, List.foldl_append, ih l (by omega)]
    simp only [List.foldl_cons, List.foldl_nil, List.map_append, List.map_cons, List.map_nil]
    have hlen : (List.take off l ++ List.map g (List.range n)).length = off + n := by
      simp; omega
    rw [List.set_append_right _ _ (by omega)]
    rw [hlen, Nat.sub_self]
    have hd : List.drop (off + n) l = l[off + n] :: List.drop (off + (n + 1)) l := by
      rw [← Nat.add_assoc]; exact List.drop_eq_getElem_cons (by omega)
    rw [hd]
    simp

theorem foldl_SetEntry_entries (f : Nat → Nat) (g : Nat → cdouble) :
    ∀ (is : List Nat) (v : HVector),
      (is.foldl (fun L i => L.SetEntry (f i) (g i)) v).entries
        = is.foldl (fun l i => l.set (f i) (g i)) v.entries := by
  intro is
  induction is with
  | nil => intro v; rfl
  | cons i is ih => intro v; simp only [List.foldl_cons]; rw [ih]; rfl

theorem copyLoop_entries (L0 : HVector) (m : Nat) :
    (copyLoop L0 (HVector.new (L0.N + m))).entries
      = L0.entries ++ List.replicate m (cdouble.ofReal 0) := by
  unfold copyLoop HVector.GetEntry
  rw [foldl_SetEntry_entries (fun i => i) (fun i => L0.entries.getD i (cdouble.ofReal 0))]
  have h := foldl_set_range (fun i => L0.entries.getD i (cdouble.ofReal 0)) 0 L0.N
    (HVector.new (L0.N + m)).entries (by simp [HVector.new])
  simp only [Nat.zero_add] at h
  rw [h]
  simp [HVector.new, HVector.N, map_getD_range]

theorem appendLoop_entries (e f : List cdouble) (v : HVector)
    (hv : v.entries = f ++ List.replicate e.length (cdouble.ofReal 0)) :
    (appendLoop e f.length v).entries = f ++ e := by
  unfold appendLoop
  rw [foldl_SetEntry_entries (fun i => f.length + i) (fun i => e.getD i (cdouble.ofReal 0))]
  rw [foldl_set_range _ _ _ _ (by simp [hv]), hv]
  simp [map_getD_range]

/-! ## The frequency list -/

theorem readOmegaFile_ok (env : Env) (o : Options) (hload : FileLoads env o) :
    ∃ s, readOmegaFile env o = .ok s ∧ s.list = fileEntries env o
      ∧ s.NumFreqs = (fileEntries env o).length
      ∧ (o.nOmegaFiles = 1 → s.OmegaList = some (env.readHVector o.OmegaFile)) := by
  unfold readOmegaFile fileEntries
  by_cases h : o.nOmegaFiles = 1
  · have hm := hload h
    rw [if_pos h, if_pos h]
    dsimp only
    rw [hm]
    exact ⟨_, rfl, rfl, rfl, fun _ => rfl⟩
  · rw [if_neg h, if_neg h]
    exact ⟨_, rfl, rfl, rfl, fun hh => absurd hh h⟩

theorem readOmegaFile_error (env : Env) (o : Options) (hload : ¬ FileLoads env o) :
    ∃ msg, readOmegaFile env o = .error (.OmegaFileErrMsg msg) := by
  unfold FileLoads at hload
  unfold readOmegaFile
  by_cases h : o.nOmegaFiles = 1
  · rw [if_pos h]
    dsimp only
    cases hm : (env.readHVector o.OmegaFile).ErrMsg with
    | none => exact absurd (fun _ => hm) hload
    | some msg => exact ⟨msg, rfl⟩
  · exact absurd (fun hh => absurd hh h) hload

theorem addOmegaVals_spec (o : Options) (s : Freqs) (hs : s.NumFreqs = s.list.length) :
    (addOmegaVals o s).list = s.list ++ o.OmegaVals
      ∧ (addOmegaVals o s).NumFreqs = (s.list ++ o.OmegaVals).length
      ∧ (o.OmegaVals = [] → addOmegaVals o s = s)
      ∧ (o.OmegaVals ≠ [] → (addOmegaVals o s).OmegaList ≠ none) := by
  unfold addOmegaVals Options.nOmegaVals
  by_cases hm : o.OmegaVals.length > 0
  · have hne : o.OmegaVals ≠ [] := by
      intro h; rw [h] at hm; simp at hm
    simp only [hm, if_true]
    refine ⟨?_, ?_, fun h => absurd h hne, fun _ => by simp⟩
    · cases hL : s.OmegaList with
      | none =>
        have h0 : s.NumFreqs = 0 := by rw [hs]; simp [Freqs.list, hL]
        simp only [Freqs.list, hL, h0, List.nil_append]
        have := appendLoop_entries o.OmegaVals [] (HVector.new (0 + o.OmegaVals.length))
          (by simp [HVector.new])
        simpa using this
      | some L0 =>
        have h0 : s.NumFreqs = L0.N := by rw [hs]; simp [Freqs.list, hL, HVector.N]
        simp only [Freqs.list, hL, h0]
        exact appendLoop_entries o.OmegaVals L0.entries _ (copyLoop_entries L0 _)
    · simp [hs]
  · have he : o.OmegaVals = [] := by
      cases h : o.OmegaVals with
      | nil => rfl
      | cons a l => rw [h] at hm; simp at hm
    rw [if_neg hm]
    exact ⟨by simp [he], by simp [he, hs], fun _ => rfl, fun h => absurd he h⟩

theorem buildOmegaList_ok (env : Env) (o : Options) (hload : FileLoads env o) :
    ∃ s, buildOmegaList env o = .ok s
      ∧ s.list = fileEntries env o ++ o.OmegaVals
      ∧ s.NumFreqs = mergedCount env o
      ∧ (o.OmegaVals = [] → o.nOmegaFiles = 1 →
          s.OmegaList = some (env.readHVector o.OmegaFile))
      ∧ (o.OmegaVals ≠ [] → s.OmegaList ≠ none) := by
  obtain ⟨s0, h0, hl, hn, hf⟩ := readOmegaFile_ok env o hload
  have hspec := addOmegaVals_spec o s0 (by rw [hn, hl])
  refine ⟨addOmegaVals o s0, ?_, ?_, ?_, ?_, hspec.2.2.2⟩
  · simp [buildOmegaList, h0]
  · rw [hspec.1, hl]
  · rw [hspec.2.1, hl]; simp [mergedCount, Options.nOmegaVals]
  · intro he h1
    rw [hspec.2.2.1 he]; exact hf h1

theorem buildOmegaList_error (env : Env) (o : Options) (hload : ¬ FileLoads env o) :
    ∃ msg, buildOmegaList env o = .error (.OmegaFileErrMsg msg) := by
  obtain ⟨msg, h⟩ := readOmegaFile_error env o hload
  exact ⟨msg, by simp [buildOmegaList, h]⟩

/-- C1: the frequency list that lines 230-256 build is the file entries
followed by the `--Omega` values, each part in its order, and its length is the
sum of the two counts; with no `--Omega` value and a file given it is the
vector read from the file. -/
theorem built_list_is_file_then_explicit (env : Env) (o : Options)
    (hload : FileLoads env o) (hgiven : 1 ≤ o.nOmegaVals ∨ o.nOmegaFiles = 1) :
    ∃ s L, buildOmegaList env o = .ok s ∧ s.OmegaList = some L
      ∧ L.entries = fileEntries env o ++ o.OmegaVals
      ∧ L.N = (fileEntries env o).length + o.nOmegaVals
      ∧ s.NumFreqs = L.N
      ∧ (o.nOmegaVals = 0 → L = env.readHVector o.OmegaFile
          ∧ L.entries = fileEntries env o) := by
  obtain ⟨s, hb, hl, hn, hfile, hex⟩ := buildOmegaList_ok env o hload
  have hsome : ∃ L, s.OmegaList = some L := by
    by_cases he : o.OmegaVals = []
    · rcases hgiven with h | h
      · simp [Options.nOmegaVals, he] at h
      · exact ⟨_, hfile he h⟩
    · cases hL : s.OmegaList with
      | none => exact absurd hL (hex he)
      | some L => exact ⟨L, rfl⟩
  obtain ⟨L, hL⟩ := hsome
  have hent : L.entries = fileEntries env o ++ o.OmegaVals := by
    rw [← hl]; simp [Freqs.list, hL]
  refine ⟨s, L, hb, hL, hent, ?_, ?_, ?_⟩
  · simp [HVector.N, hent, Options.nOmegaVals]
  · simp [hn, mergedCount, HVector.N, hent, Options.nOmegaVals]
  · intro h0
    have he : o.OmegaVals = [] := List.length_eq_zero.mp h0
    have h1 : o.nOmegaFiles = 1 := by
      rcases hgiven with h | h
      · omega
      · exact h
    have := hfile he h1
    rw [hL] at this
    refine ⟨Option.some.inj this, ?_⟩
    rw [hent, he]; simp

/-- C1, at the file `1+0i, 2+0i` with `--Omega 3+0i`: the list is `1, 2, 3`. -/
theorem built_list_is_file_then_explicit_witness :
    FileLoads sampleEnv fileAndOmega3
      ∧ (1 ≤ fileAndOmega3.nOmegaVals ∨ fileAndOmega3.nOmegaFiles = 1)
      ∧ (∃ s L, buildOmegaList sampleEnv fileAndOmega3 = .ok s
          ∧ s.OmegaList = some L
          ∧ L.entries = [cdouble.ofReal 1, cdouble.ofReal 2, cdouble.ofReal 3]
          ∧ L.N = 2 + 1
          ∧ s.NumFreqs = L.N
          ∧ (fileAndOmega3.nOmegaVals = 0 → L = sampleEnv.readHVector "freqs"
              ∧ L.entries = [cdouble.ofReal 1, cdouble.ofReal 2])) :=
  ⟨by decide, by decide,
    built_list_is_file_then_explicit sampleEnv fileAndOmega3 (by decide) (by decide)⟩

/-! ## The mode check and the run -/

theorem buildOmegaList_inv (env : Env) (o : Options) (s : Freqs)
    (hb : buildOmegaList env o = .ok s) :
    FileLoads env o ∧ s.list = fileEntries env o ++ o.OmegaVals
      ∧ s.NumFreqs = mergedCount env o ∧ s.NumFreqs = s.list.length
      ∧ (0 < s.NumFreqs → s.OmegaList ≠ none) := by
  by_cases hload : FileLoads env o
  · obtain ⟨s', hb', hl, hn, hfile, hex⟩ := buildOmegaList_ok env o hload
    rw [hb] at hb'
    cases hb'
    have hlen : s.NumFreqs = s.list.length := by
      rw [hn, hl]; simp [mergedCount, Options.nOmegaVals]
    refine ⟨hload, hl, hn, hlen, ?_⟩
    intro hpos hnone
    rw [hlen] at hpos
    simp [Freqs.list, hnone] at hpos
  · obtain ⟨msg, he⟩ := buildOmegaList_error env o hload
    rw [hb] at he
    cases he

theorem frequencyOptions_inv (env : Env) (o : Options) (s : Freqs)
    (hok : frequencyOptions env o = .ok s) :
    ∃ sb log, buildOmegaList env o = .ok sb ∧ checkFrequencyMode o sb.NumFreqs = .ok log
      ∧ s = { sb with log := sb.log ++ log } := by
  unfold frequencyOptions at hok
  cases hb : buildOmegaList env o with
  | error f => rw [hb] at hok; cases hok
  | ok sb =>
    rw [hb] at hok
    dsimp only at hok
    cases hc : checkFrequencyMode o sb.NumFreqs with
    | error f => rw [hc] at hok; cases hok
    | ok log =>
      rw [hc] at hok
      cases hok
      exact ⟨sb, log, rfl, hc, rfl⟩

theorem frequencyOptions_of_build (env : Env) (o : Options) (sb : Freqs)
    (hb : buildOmegaList env o = .ok sb) :
    frequencyOptions env o =
      match checkFrequencyMode o sb.NumFreqs with
      | .error f => .error f
      | .ok log => .ok { sb with log := sb.log ++ log } := by
  unfold frequencyOptions
  rw [hb]

theorem checkFrequencyMode_conflict (o : Options) (n : Nat) :
    checkFrequencyMode o n = .error .RangeWithDiscrete
      ↔ 0 < n ∧ (0 < o.nOmegaMin ∨ 0 < o.nOmegaMax) := by
  unfold checkFrequencyMode
  by_cases hn : n > 0
  · by_cases hr : o.nOmegaMin > 0 ∨ o.nOmegaMax > 0
    · simp [hn, hr]
    · rw [if_pos hn, if_neg hr]
      simp [hr]
  · have h0 : n = 0 := by omega
    subst h0
    simp only [gt_iff_lt, Nat.lt_irrefl, if_false, if_true, false_and, iff_false]
    split_ifs <;> simp

theorem main_exit (env : Env) (o : Options) (hopt : checkOptions o = none) :
    (main env o).exit =
      match frequencyOptions env o with
      | .error f => some f
      | .ok s => (sweep env s).exit := by
  unfold main frequencyOptions
  rw [hopt]
  dsimp only
  cases buildOmegaList env o with
  | error f => rfl
  | ok sb =>
    dsimp only
    cases checkFrequencyMode o sb.NumFreqs <;> rfl

theorem main_trace (env : Env) (o : Options) (s : Freqs) (hopt : checkOptions o = none)
    (hok : frequencyOptions env o = .ok s) :
    (main env o).trace = startLog o ++ s.log
        ++ [.CreateSHData o.GeoFile o.TransFile o.PlotFlux o.ByOmegaFile o.nThread]
        ++ preloadCaches o ++ [.SetWriteCache (writeCacheOf o)] ++ (sweep env s).trace := by
  obtain ⟨sb, log, hb, hc, hs⟩ := frequencyOptions_inv env o s hok
  have hsw : sweep env s = sweep env sb := by rw [hs]; rfl
  have hlog : s.log = sb.log ++ log := by rw [hs]
  unfold main
  rw [hopt]
  dsimp only
  rw [hb]
  dsimp only
  rw [hc]
  dsimp only
  rw [hsw, hlog]
  simp only [List.append_assoc]

theorem sweep_exit_ne_conflict (env : Env) (s : Freqs) :
    (sweep env s).exit ≠ some .RangeWithDiscrete := by
  unfold sweep
  dsimp only
  split_ifs
  · cases s.OmegaList <;> simp
  · simp
/-- C2: for options that pass the option checks and whose frequency file, if
any, loads, `main` stops with the list/range conflict error exactly when the
merged frequency count is non-zero and `--OmegaMin` or `--OmegaMax` was given;
and whenever lines 230-279 accept, either the list is non-empty (the branch
`NumFreqs>0`) with neither range option given, or it is empty (the range
branch). -/
theorem conflict_iff_list_and_range (env : Env) (o : Options)
    (hopt : checkOptions o = none) (hload : FileLoads env o) :
    ((main env o).exit = some .RangeWithDiscrete
        ↔ mergedCount env o ≠ 0 ∧ (0 < o.nOmegaMin ∨ 0 < o.nOmegaMax))
      ∧ (∀ s, frequencyOptions env o = .ok s →
          (0 < s.NumFreqs ∧ s.list ≠ [] ∧ o.nOmegaMin = 0 ∧ o.nOmegaMax = 0)
            ∨ (s.NumFreqs = 0 ∧ s.list = [] ∧ ¬ (0 < s.NumFreqs))) := by
  obtain ⟨sb, hb, -, hn, -, -⟩ := buildOmegaList_ok env o hload
  constructor
  · rw [main_exit env o hopt, frequencyOptions_of_build env o sb hb, ← hn,
      Nat.pos_iff_ne_zero.symm, ← checkFrequencyMode_conflict]
    cases hc : checkFrequencyMode o sb.NumFreqs with
    | error f =>
      dsimp only
      constructor
      · intro h; rw [Option.some.inj h]
      · intro h; rw [Except.error.inj h]
    | ok log =>
      dsimp only
      constructor
      · intro h; exact absurd h (sweep_exit_ne_conflict env _)
      · intro h; cases h
  · intro s hok
    obtain ⟨sb', log, hb', hc, hs⟩ := frequencyOptions_inv env o s hok
    obtain ⟨-, -, -, hlen, -⟩ := buildOmegaList_inv env o sb' hb'
    have hN : s.NumFreqs = sb'.NumFreqs := by rw [hs]
    have hL : s.list = sb'.list := by rw [hs]; rfl
    rw [hN, hL]
    by_cases hpos : 0 < sb'.NumFreqs
    · left
      have hnc : ¬ (0 < sb'.NumFreqs ∧ (0 < o.nOmegaMin ∨ 0 < o.nOmegaMax)) := by
        rw [← checkFrequencyMode_conflict, hc]; simp
      refine ⟨hpos, ?_, ?_, ?_⟩
      · intro h; rw [hlen, h] at hpos; simp at hpos
      · by_contra h; exact hnc ⟨hpos, Or.inl (by omega)⟩
      · by_contra h; exact hnc ⟨hpos, Or.inr (by omega)⟩
    · right
      have h0 : sb'.NumFreqs = 0 := by omega
      refine ⟨h0, ?_, hpos⟩
      rw [hlen] at h0
      exact List.length_eq_zero.mp h0

/-- C2, at `--OmegaFile freqs --Omega 3+0i --OmegaMin 0`: the run stops with
the conflict error. -/
theorem conflict_iff_list_and_range_witness :
    checkOptions fileOmega3AndMin = none ∧ FileLoads sampleEnv fileOmega3AndMin
      ∧ (main sampleEnv fileOmega3AndMin).exit = some .RangeWithDiscrete :=
  ⟨by decide, by decide,
    (conflict_iff_list_and_range sampleEnv fileOmega3AndMin (by decide) (by decide)).1.mpr
      ⟨by decide, Or.inl (by decide)⟩⟩
theorem double_eq_num (a : double) (x : ℚ) : double.eq a (.num x) = true ↔ a = .num x := by
  cases a <;> simp [double.eq]

theorem double_ne_num (a : double) (x : ℚ) : double.ne a (.num x) = true ↔ a ≠ .num x := by
  unfold double.ne
  rw [Bool.not_eq_true', ← Bool.not_eq_true, double_eq_num]

theorem double_le_of_not_lt (a b : double) (ha : a ≠ .nan) (hb : b ≠ .nan)
    (h : ¬ double.lt a b = true) : double.le b a = true := by
  cases a <;> cases b <;> simp_all [double.lt, double.le, double.eq]
  exact le_iff_lt_or_eq.mp h

theorem double_lt_sentinel (b : double) (hb : b ≠ .nan)
    (h0 : ¬ double.lt b (.num 0) = true) : double.lt (.num (-1)) b = true := by
  cases b <;> simp_all [double.lt]
  linarith

theorem cdouble_eqReal_num (z : cdouble) (x : ℚ) :
    cdouble.eqReal z (.num x) = true ↔ z = cdouble.ofReal x := by
  cases z with
  | mk re im =>
    simp only [cdouble.eqReal, cdouble.ofReal, Bool.and_eq_true, double_eq_num, cdouble.mk.injEq]

theorem checkFrequencyMode_zero_error (o : Options) :
    (∃ f, checkFrequencyMode o 0 = .error f ∧ f.InvalidRangeBound)
      ↔ (o.nOmegaMin = 1 ∧ (double.lt (real o.OmegaMin) (.num 0) = true
            ∨ double.ne (imag o.OmegaMin) (.num 0) = true))
        ∨ (o.nOmegaMax = 1 ∧ (double.lt (real o.OmegaMax) (real o.OmegaMin) = true
            ∨ double.ne (imag o.OmegaMax) (.num 0) = true)) := by
  unfold checkFrequencyMode Failure.InvalidRangeBound
  simp only [gt_iff_lt, Nat.lt_irrefl, if_false, if_true]
  by_cases h1 : o.nOmegaMin = 1 ∧ (double.lt (real o.OmegaMin) (.num 0) = true
      ∨ double.ne (imag o.OmegaMin) (.num 0) = true)
  · rw [if_pos h1]
    exact ⟨fun _ => Or.inl h1, fun _ => ⟨_, rfl, Or.inl rfl⟩⟩
  · rw [if_neg h1]
    by_cases h2 : o.nOmegaMax = 1 ∧ (double.lt (real o.OmegaMax) (real o.OmegaMin) = true
        ∨ double.ne (imag o.OmegaMax) (.num 0) = true)
    · rw [if_pos h2]
      exact ⟨fun _ => Or.inr h2, fun _ => ⟨_, rfl, Or.inr rfl⟩⟩
    · rw [if_neg h2]
      constructor
      · rintro ⟨f, hf, -⟩
        split_ifs at hf
      · rintro (h | h)
        · exact absurd h h1
        · exact absurd h h2

theorem checkFrequencyMode_zero_ok (o : Options) (log : List Event)
    (hc : checkFrequencyMode o 0 = .ok log) :
    ¬ (o.nOmegaMin = 1 ∧ (double.lt (real o.OmegaMin) (.num 0) = true
          ∨ double.ne (imag o.OmegaMin) (.num 0) = true))
      ∧ ¬ (o.nOmegaMax = 1 ∧ (double.lt (real o.OmegaMax) (real o.OmegaMin) = true
          ∨ double.ne (imag o.OmegaMax) (.num 0) = true))
      ∧ log = [if cdouble.eqReal o.OmegaMax (.num (-1)) = true
               then Event.LogRangeInfinity (real o.OmegaMin)
               else Event.LogRange (real o.OmegaMin) (real o.OmegaMax)] := by
  unfold checkFrequencyMode at hc
  simp only [gt_iff_lt, Nat.lt_irrefl, if_false, if_true] at hc
  by_cases h1 : o.nOmegaMin = 1 ∧ (double.lt (real o.OmegaMin) (.num 0) = true
      ∨ double.ne (imag o.OmegaMin) (.num 0) = true)
  · rw [if_pos h1] at hc; cases hc
  · rw [if_neg h1] at hc
    by_cases h2 : o.nOmegaMax = 1 ∧ (double.lt (real o.OmegaMax) (real o.OmegaMin) = true
        ∨ double.ne (imag o.OmegaMax) (.num 0) = true)
    · rw [if_pos h2] at hc; cases hc
    · rw [if_neg h2] at hc
      refine ⟨h1, h2, ?_⟩
      split_ifs at hc ⊢ <;> cases hc <;> rfl

theorem range_accepted_bounds (o : Options) (hp : o.Processed) (log : List Event)
    (hc : checkFrequencyMode o 0 = .ok log) :
    o.OmegaMin.im = .num 0
      ∧ ¬ double.lt o.OmegaMin.re (.num 0) = true
      ∧ (0 < o.nOmegaMax → o.OmegaMax.im = .num 0
          ∧ ¬ double.lt o.OmegaMax.re o.OmegaMin.re = true) := by
  obtain ⟨hmin, hmax, hdmin, -⟩ := hp
  obtain ⟨h1, h2, -⟩ := checkFrequencyMode_zero_ok o log hc
  simp only [real, imag] at h1 h2
  have hminOK : o.OmegaMin.im = .num 0 ∧ ¬ double.lt o.OmegaMin.re (.num 0) = true := by
    by_cases hs : o.nOmegaMin = 1
    · have hn : ¬ (double.lt o.OmegaMin.re (.num 0) = true
          ∨ double.ne o.OmegaMin.im (.num 0) = true) := fun h => h1 ⟨hs, h⟩
      rw [not_or, double_ne_num, not_not] at hn
      exact ⟨hn.2, hn.1⟩
    · have hz : o.nOmegaMin = 0 := by omega
      rw [hdmin hz]
      exact ⟨rfl, by decide⟩
  refine ⟨hminOK.1, hminOK.2, ?_⟩
  intro hs
  have hn : ¬ (double.lt o.OmegaMax.re o.OmegaMin.re = true
      ∨ double.ne o.OmegaMax.im (.num 0) = true) := fun h => h2 ⟨by omega, h⟩
  rw [not_or, double_ne_num, not_not] at hn
  exact ⟨hn.2, hn.1⟩

/-- The events that are log lines about reading frequencies. -/
theorem buildOmegaList_log (env : Env) (o : Options) (s : Freqs)
    (hb : buildOmegaList env o = .ok s) :
    ∀ ev ∈ s.log, (∃ n file, ev = Event.LogReadFile n file)
      ∨ (∃ n, ev = Event.LogReadCommandLine n) := by
  unfold buildOmegaList at hb
  cases hr : readOmegaFile env o with
  | error f => rw [hr] at hb; cases hb
  | ok s0 =>
    rw [hr] at hb
    cases hb
    have h0 : ∀ ev ∈ s0.log, ∃ n file, ev = Event.LogReadFile n file := by
      unfold readOmegaFile at hr
      split_ifs at hr
      · dsimp only at hr
        split at hr
        · cases hr
        · cases hr
          intro ev hev
          simp only [List.mem_singleton] at hev
          exact ⟨_, _, hev⟩
      · cases hr
        intro ev hev
        cases hev
    intro ev hev
    unfold addOmegaVals at hev
    split_ifs at hev
    · simp only [List.mem_append, List.mem_singleton] at hev
      rcases hev with h | h
      · exact Or.inl (h0 ev h)
      · exact Or.inr ⟨_, h⟩
    · exact Or.inl (h0 ev hev)

theorem filterMap_nil_of_forall {α β : Type} (f : α → Option β) (l : List α)
    (h : ∀ a ∈ l, f a = none) : l.filterMap f = [] := by
  induction l with
  | nil => rfl
  | cons a l ih =>
    rw [List.filterMap_cons, h a (List.mem_cons_self a l)]
    exact ih (fun b hb => h b (List.mem_cons_of_mem a hb))

theorem startLog_observations (o : Options) :
    evaluatorCalls (startLog o) = [] ∧ preloadCalls (startLog o) = []
      ∧ loggedRanges (startLog o) = [] ∧ resultBuffers (startLog o) = []
      ∧ evaluatorBuffers (startLog o) = [] := by
  unfold startLog
  cases o.LogFile <;> exact ⟨rfl, rfl, rfl, rfl, rfl⟩

theorem buildOmegaList_observations (env : Env) (o : Options) (s : Freqs)
    (hb : buildOmegaList env o = .ok s) :
    evaluatorCalls s.log = [] ∧ preloadCalls s.log = []
      ∧ loggedRanges s.log = [] ∧ resultBuffers s.log = []
      ∧ evaluatorBuffers s.log = [] := by
  have h := buildOmegaList_log env o s hb
  refine ⟨?_, ?_, ?_, ?_, ?_⟩ <;>
  · apply filterMap_nil_of_forall
    intro ev hev
    rcases h ev hev with ⟨n, file, rfl⟩ | ⟨n, rfl⟩ <;> rfl

theorem checkFrequencyMode_observations (o : Options) (n : Nat) (log : List Event)
    (hc : checkFrequencyMode o n = .ok log) :
    evaluatorCalls log = [] ∧ preloadCalls log = [] ∧ resultBuffers log = []
      ∧ evaluatorBuffers log = [] := by
  unfold checkFrequencyMode at hc
  split_ifs at hc <;> cases hc <;> exact ⟨rfl, rfl, rfl, rfl⟩

theorem preloadCaches_observations (o : Options) :
    evaluatorCalls (preloadCaches o) = [] ∧ preloadCalls (preloadCaches o)
        = o.ReadCache ++ (match o.Cache with | some c => [c] | none => [])
      ∧ loggedRanges (preloadCaches o) = [] ∧ resultBuffers (preloadCaches o) = []
      ∧ evaluatorBuffers (preloadCaches o) = [] := by
  unfold preloadCaches
  have hmem : ∀ ev ∈ (List.range o.nReadCache).map
      (fun nrc => Event.PreloadCache (o.ReadCache.getD nrc "")) ++
      (match o.Cache with | some c => [Event.PreloadCache c] | none => []),
      ∃ file, ev = Event.PreloadCache file := by
    intro ev hev
    rw [List.mem_append] at hev
    rcases hev with h | h
    · rw [List.mem_map] at h
      obtain ⟨i, -, rfl⟩ := h
      exact ⟨_, rfl⟩
    · cases hC : o.Cache with
      | none => rw [hC] at h; cases h
      | some c =>
        rw [hC] at h
        simp only [List.mem_singleton] at h
        exact ⟨_, h⟩
  refine ⟨?_, ?_, ?_, ?_, ?_⟩
  · apply filterMap_nil_of_forall
    intro ev hev
    obtain ⟨file, rfl⟩ := hmem ev hev
    rfl
  · unfold preloadCalls Options.nReadCache
    rw [List.filterMap_append, List.filterMap_map]
    have h1 : List.filterMap ((fun ev => match ev with
        | Event.PreloadCache file => some file
        | _ => none) ∘ fun nrc => Event.PreloadCache (o.ReadCache.getD nrc ""))
        (List.range o.ReadCache.length) = o.ReadCache := by
      have : ((fun ev => match ev with
        | Event.PreloadCache file => some file
        | _ => none) ∘ fun nrc => Event.PreloadCache (o.ReadCache.getD nrc ""))
          = fun nrc => some (o.ReadCache[nrc]?.getD "") := by
        funext nrc; simp
      rw [this]
      show List.filterMap (some ∘ fun nrc => o.ReadCache[nrc]?.getD "") _ = _
      rw [List.filterMap_eq_map]
      exact map_getD_range o.ReadCache ""
    rw [h1]
    cases o.Cache <;> rfl
  · apply filterMap_nil_of_forall
    intro ev hev
    obtain ⟨file, rfl⟩ := hmem ev hev
    rfl
  · apply filterMap_nil_of_forall
    intro ev hev
    obtain ⟨file, rfl⟩ := hmem ev hev
    rfl
  · apply filterMap_nil_of_forall
    intro ev hev
    obtain ⟨file, rfl⟩ := hmem ev hev
    rfl
theorem evaluatorCalls_append (a b : List Event) :
    evaluatorCalls (a ++ b) = evaluatorCalls a ++ evaluatorCalls b :=
  List.filterMap_append _ _ _

theorem evaluatorBuffers_append (a b : List Event) :
    evaluatorBuffers (a ++ b) = evaluatorBuffers a ++ evaluatorBuffers b :=
  List.filterMap_append _ _ _

theorem resultBuffers_append (a b : List Event) :
    resultBuffers (a ++ b) = resultBuffers a ++ resultBuffers b :=
  List.filterMap_append _ _ _

theorem preloadCalls_append (a b : List Event) :
    preloadCalls (a ++ b) = preloadCalls a ++ preloadCalls b :=
  List.filterMap_append _ _ _

theorem loggedRanges_append (a b : List Event) :
    loggedRanges (a ++ b) = loggedRanges a ++ loggedRanges b :=
  List.filterMap_append _ _ _

theorem sweepLoop_observations (L : HVector) (n I : Nat) :
    evaluatorCalls (sweepLoop L n I) = (List.range n).map L.GetEntry
      ∧ evaluatorBuffers (sweepLoop L n I) = List.replicate n I
      ∧ preloadCalls (sweepLoop L n I) = []
      ∧ loggedRanges (sweepLoop L n I) = []
      ∧ resultBuffers (sweepLoop L n I) = [] := by
  have hmem : ∀ ev ∈ sweepLoop L n I, ∃ Omega, ev = Event.GetFrequencyIntegrand Omega I := by
    intro ev hev
    unfold sweepLoop at hev
    rw [List.mem_map] at hev
    obtain ⟨i, -, rfl⟩ := hev
    exact ⟨_, rfl⟩
  refine ⟨?_, ?_, ?_, ?_, ?_⟩
  · unfold evaluatorCalls sweepLoop
    rw [List.filterMap_map]
    show List.filterMap (some ∘ L.GetEntry) _ = _
    rw [List.filterMap_eq_map]
  · unfold evaluatorBuffers sweepLoop
    rw [List.filterMap_map]
    show List.filterMap (some ∘ fun _ => I) _ = _
    rw [List.filterMap_eq_map]
    apply List.ext_getElem <;> simp
  · apply filterMap_nil_of_forall
    intro ev hev
    obtain ⟨Omega, rfl⟩ := hmem ev hev
    rfl
  · apply filterMap_nil_of_forall
    intro ev hev
    obtain ⟨Omega, rfl⟩ := hmem ev hev
    rfl
  · apply filterMap_nil_of_forall
    intro ev hev
    obtain ⟨Omega, rfl⟩ := hmem ev hev
    rfl

theorem sweep_range (env : Env) (s : Freqs) (h0 : s.NumFreqs = 0) :
    sweep env s = ⟨[.NewI env.NumTransformations env.newI], some .NotImplemented⟩ := by
  unfold sweep
  simp [h0]

theorem sweep_discrete (env : Env) (s : Freqs) (L : HVector) (hpos : 0 < s.NumFreqs)
    (hL : s.OmegaList = some L) :
    sweep env s = ⟨[.NewI env.NumTransformations env.newI]
      ++ sweepLoop L s.NumFreqs env.newI ++ [.DeleteI env.newI, .Printf], none⟩ := by
  unfold sweep
  simp [hpos, hL]

theorem sweep_discrete_observations (env : Env) (s : Freqs) (hpos : 0 < s.NumFreqs)
    (hlen : s.NumFreqs = s.list.length) :
    (sweep env s).exit = none
      ∧ evaluatorCalls (sweep env s).trace = s.list
      ∧ evaluatorBuffers (sweep env s).trace = List.replicate s.NumFreqs env.newI
      ∧ preloadCalls (sweep env s).trace = []
      ∧ loggedRanges (sweep env s).trace = []
      ∧ resultBuffers (sweep env s).trace = [(env.NumTransformations, env.newI)] := by
  cases hL : s.OmegaList with
  | none =>
    rw [hlen] at hpos
    simp [Freqs.list, hL] at hpos
  | some L =>
    have hl : s.list = L.entries := by simp [Freqs.list, hL]
    obtain ⟨h1, h2, h3, h4, h5⟩ := sweepLoop_observations L s.NumFreqs env.newI
    rw [sweep_discrete env s L hpos hL]
    refine ⟨rfl, ?_, ?_, ?_, ?_, ?_⟩
    · show evaluatorCalls (_ ++ _ ++ _) = _
      rw [evaluatorCalls_append, evaluatorCalls_append, h1, hlen, hl]
      have := map_getD_range L.entries (cdouble.ofReal 0)
      simp only [← List.getD_eq_getElem?_getD] at this
      show [] ++ List.map (fun n => L.entries.getD n (cdouble.ofReal 0)) _ ++ [] = _
      rw [this]
      simp
    · show evaluatorBuffers (_ ++ _ ++ _) = _
      rw [evaluatorBuffers_append, evaluatorBuffers_append, h2]
      show [] ++ _ ++ [] = _
      simp
    · show preloadCalls (_ ++ _ ++ _) = _
      rw [preloadCalls_append, preloadCalls_append, h3]
      rfl
    · show loggedRanges (_ ++ _ ++ _) = _
      rw [loggedRanges_append, loggedRanges_append, h4]
      rfl
    · show resultBuffers (_ ++ _ ++ _) = _
      rw [resultBuffers_append, resultBuffers_append, h5]
      rfl
theorem frequencyOptions_facts (env : Env) (o : Options) (s : Freqs)
    (hok : frequencyOptions env o = .ok s) :
    ∃ log, checkFrequencyMode o s.NumFreqs = .ok log
      ∧ s.list = fileEntries env o ++ o.OmegaVals
      ∧ s.NumFreqs = mergedCount env o ∧ s.NumFreqs = s.list.length
      ∧ evaluatorCalls s.log = [] ∧ evaluatorBuffers s.log = []
      ∧ resultBuffers s.log = [] ∧ preloadCalls s.log = []
      ∧ loggedRanges s.log = loggedRanges log := by
  obtain ⟨sb, log, hb, hc, hs⟩ := frequencyOptions_inv env o s hok
  obtain ⟨-, hl, hn, hlen, -⟩ := buildOmegaList_inv env o sb hb
  obtain ⟨b1, b2, b3, b4, b5⟩ := buildOmegaList_observations env o sb hb
  obtain ⟨c1, c2, c3, c4⟩ := checkFrequencyMode_observations o sb.NumFreqs log hc
  subst hs
  refine ⟨log, hc, hl, hn, hlen, ?_, ?_, ?_, ?_, ?_⟩
  · show evaluatorCalls (sb.log ++ log) = _
    rw [evaluatorCalls_append, b1, c1]; rfl
  · show evaluatorBuffers (sb.log ++ log) = _
    rw [evaluatorBuffers_append, b5, c4]; rfl
  · show resultBuffers (sb.log ++ log) = _
    rw [resultBuffers_append, b4, c3]; rfl
  · show preloadCalls (sb.log ++ log) = _
    rw [preloadCalls_append, b2, c2]; rfl
  · show loggedRanges (sb.log ++ log) = _
    rw [loggedRanges_append, b3]; rfl

/-- C5: in an accepted run with a non-empty frequency list, the frequencies
passed to `GetFrequencyIntegrand` are, in call order, exactly the entries of
the built list, which are the file entries followed by the `--Omega` values. -/
theorem evaluated_in_list_order (env : Env) (o : Options) (s : Freqs)
    (hopt : checkOptions o = none) (hok : frequencyOptions env o = .ok s)
    (hpos : 0 < s.NumFreqs) :
    evaluatorCalls (main env o).trace = s.list
      ∧ s.list = fileEntries env o ++ o.OmegaVals
      ∧ (main env o).exit = none := by
  obtain ⟨log, -, hl, -, hlen, he, -, -, -, -⟩ := frequencyOptions_facts env o s hok
  obtain ⟨hx, hs, -, -, -, -⟩ := sweep_discrete_observations env s hpos hlen
  refine ⟨?_, hl, ?_⟩
  · rw [main_trace env o s hopt hok]
    simp only [evaluatorCalls_append, (startLog_observations o).1,
      (preloadCaches_observations o).1, he, hs]
    rfl
  · rw [main_exit env o hopt, hok]
    exact hx

/-- C5, at the file `1+0i, 2+0i` with `--Omega 3+0i`: the evaluator is called
at `1, 2, 3`. -/
theorem evaluated_in_list_order_witness :
    evaluatorCalls (main sampleEnv fileAndOmega3).trace
        = [cdouble.ofReal 1, cdouble.ofReal 2, cdouble.ofReal 3]
      ∧ [cdouble.ofReal 1, cdouble.ofReal 2, cdouble.ofReal 3]
          = fileEntries sampleEnv fileAndOmega3 ++ fileAndOmega3.OmegaVals
      ∧ (main sampleEnv fileAndOmega3).exit = none :=
  evaluated_in_list_order sampleEnv fileAndOmega3
    ⟨some ⟨[cdouble.ofReal 1, cdouble.ofReal 2, cdouble.ofReal 3], none⟩, 3,
      [.LogReadFile 2 "freqs", .LogReadCommandLine 1, .LogComputing 3]⟩
    (by decide) rfl (by decide)
theorem sweepLoop_eq_map (L : HVector) (I : Nat) :
    sweepLoop L L.entries.length I
      = L.entries.map (fun Omega => Event.GetFrequencyIntegrand Omega I) := by
  unfold sweepLoop HVector.GetEntry
  have h := map_getD_range L.entries (cdouble.ofReal 0)
  have h2 : (List.range L.entries.length).map
      (fun nFreq => Event.GetFrequencyIntegrand (L.entries.getD nFreq (cdouble.ofReal 0)) I)
      = ((List.range L.entries.length).map
          (fun i => L.entries[i]?.getD (cdouble.ofReal 0))).map
          (fun Omega => Event.GetFrequencyIntegrand Omega I) := by
    rw [List.map_map]
    apply List.map_congr_left
    intro i _
    simp
  rw [h2, h]

/-- C6, as the code has it: in an accepted run with `F >= 1` frequencies and a
geometry with `N` transformations, `main` allocates the buffer `I` of length
`N` once, then calls `GetFrequencyIntegrand` once per frequency of the list, in
list order, each time passing that buffer `I`, then deletes it: `F` calls, and
before the allocation no call and no buffer. -/
theorem one_evaluator_call_per_frequency (env : Env) (o : Options) (s : Freqs)
    (hopt : checkOptions o = none) (hok : frequencyOptions env o = .ok s)
    (hpos : 1 ≤ s.NumFreqs) :
    s.list.length = s.NumFreqs
      ∧ (∃ before, (main env o).trace = before
            ++ [Event.NewI env.NumTransformations env.newI]
            ++ s.list.map (fun Omega => Event.GetFrequencyIntegrand Omega env.newI)
            ++ [Event.DeleteI env.newI, Event.Printf]
          ∧ evaluatorCalls before = [] ∧ resultBuffers before = [])
      ∧ evaluatorCalls (main env o).trace = s.list
      ∧ (evaluatorCalls (main env o).trace).length = s.NumFreqs
      ∧ evaluatorBuffers (main env o).trace = List.replicate s.NumFreqs env.newI
      ∧ resultBuffers (main env o).trace = [(env.NumTransformations, env.newI)] := by
  obtain ⟨log, -, -, -, hlen, he, hbuf, hres, -, -⟩ := frequencyOptions_facts env o s hok
  obtain ⟨-, hs, hb, -, -, hr⟩ := sweep_discrete_observations env s hpos hlen
  have hcalls : evaluatorCalls (main env o).trace = s.list := by
    rw [main_trace env o s hopt hok]
    simp only [evaluatorCalls_append, (startLog_observations o).1,
      (preloadCaches_observations o).1, he, hs]
    rfl
  refine ⟨hlen.symm, ?_, hcalls, by rw [hcalls, hlen], ?_, ?_⟩
  · cases hL : s.OmegaList with
    | none =>
      rw [hlen] at hpos
      simp [Freqs.list, hL] at hpos
    | some L =>
      have hl : s.list = L.entries := by simp [Freqs.list, hL]
      refine ⟨startLog o ++ s.log
        ++ [.CreateSHData o.GeoFile o.TransFile o.PlotFlux o.ByOmegaFile o.nThread]
        ++ preloadCaches o ++ [.SetWriteCache (writeCacheOf o)], ?_, ?_, ?_⟩
      · rw [main_trace env o s hopt hok, sweep_discrete env s L hpos hL, hlen, hl,
          sweepLoop_eq_map]
        simp only [List.append_assoc]
      · simp only [evaluatorCalls_append, (startLog_observations o).1,
          (preloadCaches_observations o).1, he]
        rfl
      · simp only [resultBuffers_append, (startLog_observations o).2.2.2.1,
          (preloadCaches_observations o).2.2.2.1, hres]
        rfl
  · rw [main_trace env o s hopt hok]
    simp only [evaluatorBuffers_append, (startLog_observations o).2.2.2.2,
      (preloadCaches_observations o).2.2.2.2, hbuf, hb]
    rfl
  · rw [main_trace env o s hopt hok]
    simp only [resultBuffers_append, (startLog_observations o).2.2.2.1,
      (preloadCaches_observations o).2.2.2.1, hres, hr]
    rfl

/-- C6, at three frequencies and two transformations: three calls, at `1, 2,
3` in that order, each with the one buffer `I`, which has length two. -/
theorem one_evaluator_call_per_frequency_witness :
    evaluatorCalls (main sampleEnv threeOmegas).trace
        = [cdouble.ofReal 1, cdouble.ofReal 2, cdouble.ofReal 3]
      ∧ (evaluatorCalls (main sampleEnv threeOmegas).trace).length = 3
      ∧ evaluatorBuffers (main sampleEnv threeOmegas).trace = List.replicate 3 4096
      ∧ resultBuffers (main sampleEnv threeOmegas).trace = [(2, 4096)] :=
  (one_evaluator_call_per_frequency sampleEnv threeOmegas
    ⟨some ⟨[cdouble.ofReal 1, cdouble.ofReal 2, cdouble.ofReal 3], none⟩, 3,
      [.LogReadCommandLine 3, .LogComputing 3]⟩
    (by decide) rfl (by decide)).2.2

/-- C6 as stated fails: with `F = 3` frequencies and `N = 2` transformations
the run is accepted and completes, and `main` makes 3 calls of the evaluator,
not `F * N = 6`. -/
theorem evaluator_calls_not_F_times_N :
    checkOptions threeOmegas = none
      ∧ (main sampleEnv threeOmegas).exit = none
      ∧ threeOmegas.nOmegaVals = 3 ∧ sampleEnv.NumTransformations = 2
      ∧ (evaluatorCalls (main sampleEnv threeOmegas).trace).length = 3
      ∧ (evaluatorCalls (main sampleEnv threeOmegas).trace).length ≠ 3 * 2 := by
  decide

/-- C7: a run that passes the option checks and lines 230-279 with a frequency
count of zero stops with `frequency integration is not yet implemented`, after
no call of the evaluator. -/
theorem range_mode_not_implemented (env : Env) (o : Options) (s : Freqs)
    (hopt : checkOptions o = none) (hok : frequencyOptions env o = .ok s)
    (h0 : s.NumFreqs = 0) :
    (main env o).exit = some .NotImplemented
      ∧ (main env o).exit ≠ none
      ∧ evaluatorCalls (main env o).trace = [] := by
  obtain ⟨log, -, -, -, -, he, -, -, -, -⟩ := frequencyOptions_facts env o s hok
  have hx : (main env o).exit = some .NotImplemented := by
    rw [main_exit env o hopt, hok]
    show (sweep env s).exit = _
    rw [sweep_range env s h0]
  refine ⟨hx, by rw [hx]; simp, ?_⟩
  rw [main_trace env o s hopt hok, sweep_range env s h0]
  simp only [evaluatorCalls_append, (startLog_observations o).1,
    (preloadCaches_observations o).1, he]
  rfl

/-- C7, with no frequency option at all. -/
theorem range_mode_not_implemented_witness :
    (main sampleEnv geometryOnly).exit = some .NotImplemented
      ∧ (main sampleEnv geometryOnly).exit ≠ none
      ∧ evaluatorCalls (main sampleEnv geometryOnly).trace = [] :=
  range_mode_not_implemented sampleEnv geometryOnly
    ⟨none, 0, [Event.LogRangeInfinity (.num 0)]⟩ (by decide) rfl rfl

/-- C8: with a geometry, `--Cache` and `--WriteCache` all given, `main` stops
with the mutual-exclusion error before making any call: no `CreateSHData`, no
`PreloadCache`, no `GetFrequencyIntegrand`. -/
theorem cache_writecache_exclusive (env : Env) (o : Options)
    (hgeo : o.GeoFile ≠ none) (hc : o.Cache ≠ none) (hw : o.WriteCache ≠ none) :
    (main env o).exit = some .CacheWriteCacheExclusive
      ∧ (main env o).trace = []
      ∧ createCalls (main env o).trace = 0
      ∧ preloadCalls (main env o).trace = []
      ∧ evaluatorCalls (main env o).trace = [] := by
  have hopt : checkOptions o = some .CacheWriteCacheExclusive := by
    unfold checkOptions
    rw [if_neg hgeo, if_pos ⟨hc, hw⟩]
  have hm : main env o = ⟨[], some .CacheWriteCacheExclusive⟩ := by
    unfold main
    rw [hopt]
  rw [hm]
  exact ⟨rfl, rfl, rfl, rfl, rfl⟩

/-- C8, at `--geometry g --Cache c --WriteCache w --Omega 1+0i`. -/
theorem cache_writecache_exclusive_witness :
    (main sampleEnv cacheAndWriteCache).exit = some .CacheWriteCacheExclusive
      ∧ (main sampleEnv cacheAndWriteCache).trace = []
      ∧ createCalls (main sampleEnv cacheAndWriteCache).trace = 0
      ∧ preloadCalls (main sampleEnv cacheAndWriteCache).trace = []
      ∧ evaluatorCalls (main sampleEnv cacheAndWriteCache).trace = [] :=
  cache_writecache_exclusive sampleEnv cacheAndWriteCache (by decide) (by decide) (by decide)

/-- C9: the option checks of lines 210-217 pass exactly when a geometry file
is given, `--Cache` and `--WriteCache` are not both given, and `--PlotFlux` and
`--ByOmegaFile` are not both given; without a geometry file the failure is the
missing-geometry one, whatever the other options are. -/
theorem checkOptions_accepts_iff (env : Env) (o : Options) :
    (checkOptions o = none
        ↔ o.GeoFile ≠ none ∧ ¬ (o.Cache ≠ none ∧ o.WriteCache ≠ none)
          ∧ ¬ (o.PlotFlux ≠ 0 ∧ o.ByOmegaFile ≠ none))
      ∧ checkOptions { o with GeoFile := none } = some .GeometryMandatory
      ∧ (main env { o with GeoFile := none }).exit = some .GeometryMandatory := by
  refine ⟨?_, ?_, ?_⟩
  · unfold checkOptions
    by_cases hg : o.GeoFile = none
    · simp [hg]
    · by_cases hc : o.Cache ≠ none ∧ o.WriteCache ≠ none
      · rw [if_neg hg, if_pos hc]
        simp [hc]
      · by_cases hpf : o.PlotFlux ≠ 0 ∧ o.ByOmegaFile ≠ none
        · rw [if_neg hg, if_neg hc, if_pos hpf]
          simp [hpf]
        · rw [if_neg hg, if_neg hc, if_neg hpf]
          simp only [true_iff]
          exact ⟨hg, hc, hpf⟩
  · rfl
  · rfl
theorem sweep_preloadCalls (env : Env) (s : Freqs) :
    preloadCalls (sweep env s).trace = [] := by
  unfold sweep
  dsimp only
  split_ifs
  · cases s.OmegaList with
    | none => rfl
    | some L =>
      show preloadCalls (_ ++ _ ++ _) = _
      rw [preloadCalls_append, preloadCalls_append,
        (sweepLoop_observations L s.NumFreqs env.newI).2.2.1]
      rfl
  · rfl

/-- C10: in a run that passes the option checks and lines 230-279, the files
passed to `PreloadCache` are, in call order, the `--ReadCache` files as listed,
followed by the `--Cache` file when one is given; and every such call comes
before every call of the evaluator. -/
theorem preloads_in_order (env : Env) (o : Options) (s : Freqs)
    (hopt : checkOptions o = none) (hok : frequencyOptions env o = .ok s) :
    preloadCalls (main env o).trace
        = o.ReadCache ++ (match o.Cache with | some c => [c] | none => [])
      ∧ (preloadCalls (main env o).trace).length
          = o.nReadCache + (if o.Cache = none then 0 else 1)
      ∧ ∃ before after, (main env o).trace = before ++ after
          ∧ evaluatorCalls before = [] ∧ preloadCalls after = []
          ∧ preloadCalls before = preloadCalls (main env o).trace
          ∧ evaluatorCalls after = evaluatorCalls (main env o).trace := by
  obtain ⟨log, -, -, -, -, he, -, -, hpre, -⟩ := frequencyOptions_facts env o s hok
  have hp : preloadCalls (main env o).trace
      = o.ReadCache ++ (match o.Cache with | some c => [c] | none => []) := by
    rw [main_trace env o s hopt hok]
    simp only [preloadCalls_append, (startLog_observations o).2.1,
      (preloadCaches_observations o).2.1, hpre, sweep_preloadCalls]
    simp [preloadCalls]
  have hbefore : evaluatorCalls (startLog o ++ s.log
      ++ [.CreateSHData o.GeoFile o.TransFile o.PlotFlux o.ByOmegaFile o.nThread]
      ++ preloadCaches o) = [] := by
    simp only [evaluatorCalls_append, (startLog_observations o).1,
      (preloadCaches_observations o).1, he]
    rfl
  have hafter : preloadCalls ([Event.SetWriteCache (writeCacheOf o)] ++ (sweep env s).trace)
      = [] := by
    rw [preloadCalls_append, sweep_preloadCalls]
    rfl
  have hsplit : (main env o).trace = (startLog o ++ s.log
      ++ [.CreateSHData o.GeoFile o.TransFile o.PlotFlux o.ByOmegaFile o.nThread]
      ++ preloadCaches o) ++ ([Event.SetWriteCache (writeCacheOf o)] ++ (sweep env s).trace) := by
    rw [main_trace env o s hopt hok]
    simp only [List.append_assoc]
  refine ⟨hp, ?_, _, _, hsplit, hbefore, hafter, ?_, ?_⟩
  · rw [hp]
    cases o.Cache <;> simp [Options.nReadCache]
  · conv_rhs => rw [hsplit, preloadCalls_append, hafter, List.append_nil]
  · conv_rhs => rw [hsplit, evaluatorCalls_append, hbefore, List.nil_append]

/-- C10, at `--ReadCache r0 --ReadCache r1 --Cache c --Omega 1+0i`: the
preloads are `r0, r1, c`. -/
theorem preloads_in_order_witness :
    checkOptions twoReadCaches = none
      ∧ preloadCalls (main sampleEnv twoReadCaches).trace = ["r0", "r1", "c"] :=
  ⟨by decide,
    (preloads_in_order sampleEnv twoReadCaches
      ⟨some ⟨[cdouble.ofReal 1], none⟩, 1, [.LogReadCommandLine 1, .LogComputing 1]⟩
      (by decide) rfl).1⟩
/-! ## The write cache -/

theorem preloadCaches_eq (o : Options) :
    preloadCaches o = o.ReadCache.map Event.PreloadCache
      ++ (match o.Cache with
          | some c => [Event.PreloadCache c]
          | none => []) := by
  unfold preloadCaches Options.nReadCache
  congr 1
  have h := map_getD_range o.ReadCache ""
  have h2 : (List.range o.ReadCache.length).map
      (fun nrc => Event.PreloadCache (o.ReadCache.getD nrc ""))
      = ((List.range o.ReadCache.length).map (fun i => o.ReadCache[i]?.getD "")).map
          Event.PreloadCache := by
    rw [List.map_map]
    apply List.map_congr_left
    intro i _
    simp
  rw [h2, h]

theorem sweep_writeCacheStores (env : Env) (s : Freqs) :
    writeCacheStores (sweep env s).trace = [] := by
  apply filterMap_nil_of_forall
  intro ev hev
  unfold sweep at hev
  dsimp only at hev
  split_ifs at hev
  · cases hL : s.OmegaList with
    | none =>
      rw [hL] at hev
      simp only [List.mem_singleton] at hev
      rw [hev]
    | some L =>
      rw [hL] at hev
      simp only [List.mem_append, List.mem_singleton, List.mem_cons, sweepLoop, List.mem_map,
        List.mem_nil_iff, or_false] at hev
      rcases hev with (h | ⟨i, -, h⟩) | h | h
      · rw [h]
      · rw [← h]
      · rw [h]
      · rw [h]
  · simp only [List.mem_singleton] at hev
    rw [hev]

/-- C11: in a run that passes the option checks and lines 230-279, the one
value stored into `SHD->WriteCache` is the `--Cache` file when that option is
given, else the `--WriteCache` file, else null; and a run with `--Cache X` is,
call for call, the run with `X` added as last `--ReadCache` file and given as
`--WriteCache` file. -/
theorem writeback_destination (env : Env) (o : Options) (s : Freqs)
    (hopt : checkOptions o = none) (hok : frequencyOptions env o = .ok s) :
    (∀ c, o.Cache = some c → writeCacheStores (main env o).trace = [some c])
      ∧ (o.Cache = none → writeCacheStores (main env o).trace = [o.WriteCache])
      ∧ (o.Cache = none → o.WriteCache = none →
          writeCacheStores (main env o).trace = [none])
      ∧ (∀ X, main env (o.withCache X) = main env (o.withReadWriteCache X)) := by
  have hw : writeCacheStores (main env o).trace = [writeCacheOf o] := by
    have hlog : writeCacheStores s.log = [] := by
      obtain ⟨sb, log, hb, hc, hs⟩ := frequencyOptions_inv env o s hok
      have hbl := buildOmegaList_log env o sb hb
      apply filterMap_nil_of_forall
      intro ev hev
      rw [hs] at hev
      simp only [List.mem_append] at hev
      rcases hev with h | h
      · rcases hbl ev h with ⟨n, file, rfl⟩ | ⟨n, rfl⟩ <;> rfl
      · unfold checkFrequencyMode at hc
        split_ifs at hc <;> cases hc <;> simp only [List.mem_singleton, List.mem_nil_iff] at h
          <;> rw [h]
    have hstart : writeCacheStores (startLog o) = [] := by
      unfold startLog
      cases o.LogFile <;> rfl
    have hpre : writeCacheStores (preloadCaches o) = [] := by
      rw [preloadCaches_eq]
      apply filterMap_nil_of_forall
      intro ev hev
      simp only [List.mem_append, List.mem_map] at hev
      rcases hev with ⟨f, -, rfl⟩ | h
      · rfl
      · cases hC : o.Cache with
        | none => rw [hC] at h; cases h
        | some c =>
          rw [hC] at h
          simp only [List.mem_singleton] at h
          rw [h]
    rw [main_trace env o s hopt hok]
    unfold writeCacheStores at hlog hstart hpre ⊢
    have hsw := sweep_writeCacheStores env s
    unfold writeCacheStores at hsw
    simp only [List.filterMap_append, hlog, hstart, hpre, hsw]
    rfl
  refine ⟨?_, ?_, ?_, ?_⟩
  · intro c hc
    rw [hw]; unfold writeCacheOf; rw [hc]
  · intro hc
    rw [hw]; unfold writeCacheOf; rw [hc]
  · intro hc hwc
    rw [hw]; unfold writeCacheOf; rw [hc, hwc]
  · intro X
    have h1 : checkOptions (o.withCache X) = none := by
      unfold checkOptions Options.withCache at *
      split_ifs at hopt ⊢ <;> simp_all
    have h2 : checkOptions (o.withReadWriteCache X) = none := by
      unfold checkOptions Options.withReadWriteCache at *
      split_ifs at hopt ⊢ <;> simp_all
    have hf1 : frequencyOptions env (o.withCache X) = .ok s := hok
    have hf2 : frequencyOptions env (o.withReadWriteCache X) = .ok s := hok
    have e1 := main_trace env _ s h1 hf1
    have e2 := main_trace env _ s h2 hf2
    have x1 := main_exit env _ h1
    have x2 := main_exit env _ h2
    rw [hf1] at x1
    rw [hf2] at x2
    have ht : (main env (o.withCache X)).trace = (main env (o.withReadWriteCache X)).trace := by
      rw [e1, e2, preloadCaches_eq, preloadCaches_eq]
      simp [startLog, writeCacheOf, Options.withCache, Options.withReadWriteCache]
    have hx : (main env (o.withCache X)).exit = (main env (o.withReadWriteCache X)).exit := by
      rw [x1, x2]
    have hext : ∀ r1 r2 : Run, r1.trace = r2.trace → r1.exit = r2.exit → r1 = r2 := by
      intro r1 r2 h h'
      cases r1
      cases r2
      simp only at h h'
      rw [h, h']
    exact hext _ _ ht hx

/-- C11, at `--Cache c --Omega 1+0i`: the write cache is `c`. -/
theorem writeback_destination_witness :
    writeCacheStores (main sampleEnv cacheOnly).trace = [some "c"] :=
  (writeback_destination sampleEnv cacheOnly
    ⟨some ⟨[cdouble.ofReal 1], none⟩, 1, [.LogReadCommandLine 1, .LogComputing 1]⟩
    (by decide) rfl).1 "c" rfl
/-! ## Repeated frequencies and early failures -/

/-- C12, as the code has it: nothing is removed from the frequency list; each
value occurs in the built list exactly as often as in the file entries plus
the `--Omega` values, so the list is free of repetitions only when the file
entries followed by the `--Omega` values are. -/
theorem built_list_keeps_duplicates (env : Env) (o : Options) (hload : FileLoads env o) :
    ∃ s, buildOmegaList env o = .ok s
      ∧ (∀ z, s.list.count z = (fileEntries env o).count z + o.OmegaVals.count z)
      ∧ (s.list.Nodup ↔ (fileEntries env o ++ o.OmegaVals).Nodup) := by
  obtain ⟨s, hb, hl, -, -, -⟩ := buildOmegaList_ok env o hload
  refine ⟨s, hb, ?_, ?_⟩
  · intro z
    rw [hl, List.count_append]
  · rw [hl]

/-- C12, at the file `1+0i, 2+0i` with `--Omega 1+0i`: the value `1` occurs
twice in the built list. -/
theorem built_list_keeps_duplicates_witness :
    FileLoads sampleEnv fileAndOmega1
      ∧ ∃ s, buildOmegaList sampleEnv fileAndOmega1 = .ok s
        ∧ (∀ z, s.list.count z = (fileEntries sampleEnv fileAndOmega1).count z
            + fileAndOmega1.OmegaVals.count z)
        ∧ (s.list.Nodup ↔ (fileEntries sampleEnv fileAndOmega1
            ++ fileAndOmega1.OmegaVals).Nodup) :=
  ⟨by decide, built_list_keeps_duplicates sampleEnv fileAndOmega1 (by decide)⟩

/-- C12 as stated fails: with the file `1+0i, 2+0i` and `--Omega 1+0i` the
built list is `1, 2, 1`, in which `1` occurs twice. -/
theorem built_list_not_deduplicated :
    ∃ s, buildOmegaList sampleEnv fileAndOmega1 = .ok s
      ∧ s.list = [cdouble.ofReal 1, cdouble.ofReal 2, cdouble.ofReal 1]
      ∧ ¬ s.list.Nodup :=
  ⟨⟨some ⟨[cdouble.ofReal 1, cdouble.ofReal 2, cdouble.ofReal 1], none⟩, 3,
      [.LogReadFile 2 "freqs", .LogReadCommandLine 1]⟩, rfl, rfl, by decide⟩

theorem frequencyOptions_error_kinds (env : Env) (o : Options) (f : Failure)
    (herr : frequencyOptions env o = .error f) :
    (∃ msg, f = .OmegaFileErrMsg msg ∧ ¬ FileLoads env o)
      ∨ f = .RangeWithDiscrete ∨ f.InvalidRangeBound := by
  by_cases hload : FileLoads env o
  · obtain ⟨sb, hb, -, -, -, -⟩ := buildOmegaList_ok env o hload
    rw [frequencyOptions_of_build env o sb hb] at herr
    right
    unfold checkFrequencyMode Failure.InvalidRangeBound at *
    split_ifs at herr <;> simp_all
  · obtain ⟨msg, hb⟩ := buildOmegaList_error env o hload
    left
    unfold frequencyOptions at herr
    rw [hb] at herr
    exact ⟨msg, (Except.error.inj herr).symm, hload⟩

theorem createCalls_of_logs (t : List Event) (h : ∀ ev ∈ t, ev.isLog = true) :
    createCalls t = 0 := by
  unfold createCalls
  rw [List.countP_eq_zero]
  intro ev hev
  have := h ev hev
  cases ev <;> simp_all [Event.isLog]

theorem startLog_isLog (o : Options) : ∀ ev ∈ startLog o, ev.isLog = true := by
  intro ev hev
  unfold startLog at hev
  cases hL : o.LogFile <;> rw [hL] at hev <;> simp only [List.mem_cons, List.mem_singleton,
    List.mem_nil_iff, or_false] at hev <;> rcases hev with h | h <;> rw [h] <;> rfl

theorem buildOmegaList_isLog (env : Env) (o : Options) (sb : Freqs)
    (hb : buildOmegaList env o = .ok sb) : ∀ ev ∈ sb.log, ev.isLog = true := by
  intro ev hev
  rcases buildOmegaList_log env o sb hb ev hev with ⟨n, file, rfl⟩ | ⟨n, rfl⟩ <;> rfl

/-- C14: when lines 230-279 reject the options (the frequency file does not
load, a list is combined with a range, or a range bound is invalid), the run
has made no `CreateSHData`, `PreloadCache` or `GetFrequencyIntegrand` call:
every call made is a log call.  If the option checks passed, it stops with
that failure, right after the log file was opened when the file does not load,
and else after the log lines about the frequencies read. -/
theorem builder_rejects_before_any_call (env : Env) (o : Options) (f : Failure)
    (herr : frequencyOptions env o = .error f) :
    createCalls (main env o).trace = 0
      ∧ preloadCalls (main env o).trace = []
      ∧ evaluatorCalls (main env o).trace = []
      ∧ (∀ ev ∈ (main env o).trace, ev.isLog = true)
      ∧ (main env o).exit ≠ none
      ∧ (checkOptions o = none → (main env o).exit = some f
          ∧ ((∃ msg, f = .OmegaFileErrMsg msg) → (main env o).trace = startLog o)
          ∧ (∀ sb, buildOmegaList env o = .ok sb →
              (main env o).trace = startLog o ++ sb.log))
      ∧ ((∃ msg, f = .OmegaFileErrMsg msg) ∨ f = .RangeWithDiscrete ∨ f.InvalidRangeBound) := by
  have hk := frequencyOptions_error_kinds env o f herr
  have hkinds : (∃ msg, f = .OmegaFileErrMsg msg) ∨ f = .RangeWithDiscrete
      ∨ f.InvalidRangeBound := by
    rcases hk with ⟨msg, h, -⟩ | h | h
    · exact Or.inl ⟨msg, h⟩
    · exact Or.inr (Or.inl h)
    · exact Or.inr (Or.inr h)
  cases hopt : checkOptions o with
  | some g =>
    have hm : main env o = ⟨[], some g⟩ := by
      unfold main
      rw [hopt]
    rw [hm]
    exact ⟨rfl, rfl, rfl, (fun ev hev => by cases hev), (by simp),
      (fun h => Option.noConfusion h), hkinds⟩
  | none =>
    cases hb : buildOmegaList env o with
    | error f0 =>
      have hf : f0 = f := by
        unfold frequencyOptions at herr
        rw [hb] at herr
        exact Except.error.inj herr
      have hm : main env o = ⟨startLog o, some f⟩ := by
        unfold main
        rw [hopt]
        dsimp only
        rw [hb, hf]
      rw [hm]
      exact ⟨createCalls_of_logs _ (startLog_isLog o), (startLog_observations o).2.1,
        (startLog_observations o).1, startLog_isLog o, by simp,
        (fun _ => ⟨rfl, (fun _ => rfl),
          (fun sb hsb => by cases hsb)⟩), hkinds⟩
    | ok sb =>
      have hc : checkFrequencyMode o sb.NumFreqs = .error f := by
        rw [frequencyOptions_of_build env o sb hb] at herr
        cases hcm : checkFrequencyMode o sb.NumFreqs with
        | error f0 => rw [hcm] at herr; rw [Except.error.inj herr]
        | ok log => rw [hcm] at herr; cases herr
      have hm : main env o = ⟨startLog o ++ sb.log, some f⟩ := by
        unfold main
        rw [hopt]
        dsimp only
        rw [hb]
        dsimp only
        rw [hc]
      have hlogs : ∀ ev ∈ startLog o ++ sb.log, ev.isLog = true := by
        intro ev hev
        rcases List.mem_append.mp hev with h | h
        · exact startLog_isLog o ev h
        · exact buildOmegaList_isLog env o sb hb ev h
      obtain ⟨b1, b2, -, -, -⟩ := buildOmegaList_observations env o sb hb
      have hnofile : ¬ ∃ msg, f = .OmegaFileErrMsg msg := by
        rintro ⟨msg, hmsg⟩
        rcases hk with ⟨msg2, -, hnl⟩ | h | h
        · exact hnl (buildOmegaList_inv env o sb hb).1
        · rw [hmsg] at h; cases h
        · rw [hmsg] at h; rcases h with h | h <;> cases h
      rw [hm]
      refine ⟨createCalls_of_logs _ hlogs, ?_, ?_, hlogs, by simp,
        fun _ => ⟨rfl, fun h => absurd h hnofile, fun sb2 hsb2 => ?_⟩, hkinds⟩
      · show preloadCalls (startLog o ++ sb.log) = []
        rw [preloadCalls_append, (startLog_observations o).2.1, b2]
        rfl
      · show evaluatorCalls (startLog o ++ sb.log) = []
        rw [evaluatorCalls_append, (startLog_observations o).1, b1]
        rfl
      · rw [Except.ok.inj hsb2]

/-- C14, at `--OmegaFile freqs --Omega 3+0i --OmegaMin 0`: the run stops with
the conflict error after the log lines about the frequencies read, and has
made none of the three calls. -/
theorem builder_rejects_before_any_call_witness :
    createCalls (main sampleEnv fileOmega3AndMin).trace = 0
      ∧ preloadCalls (main sampleEnv fileOmega3AndMin).trace = []
      ∧ evaluatorCalls (main sampleEnv fileOmega3AndMin).trace = []
      ∧ (main sampleEnv fileOmega3AndMin).exit = some .RangeWithDiscrete
      ∧ (main sampleEnv fileOmega3AndMin).trace
          = startLog fileOmega3AndMin
            ++ [.LogReadFile 2 "freqs", .LogReadCommandLine 1] :=
  have h := builder_rejects_before_any_call sampleEnv fileOmega3AndMin .RangeWithDiscrete rfl
  ⟨h.1, h.2.1, h.2.2.1, (h.2.2.2.2.2.1 (by decide)).1,
    (h.2.2.2.2.2.1 (by decide)).2.2
      ⟨some ⟨[cdouble.ofReal 1, cdouble.ofReal 2, cdouble.ofReal 3], none⟩, 3,
        [.LogReadFile 2 "freqs", .LogReadCommandLine 1]⟩ rfl⟩


end ScuffHeat

namespace scuff

/-! ## Stores -/

theorem store_same {K : Type} (m : Mem K) (a : Nat) (x : K) : store m a x a = x := by
  simp [store]

theorem store_other {K : Type} (m : Mem K) (a b : Nat) (x : K) (h : b ≠ a) :
    store m a x b = m b := by
  simp [store, h]

theorem VecCross_cells {K : Type} [Field K] (m : Mem K) (v1 v2 v3 : Nat)
    (h1 : Separate v3 v1) (h2 : Separate v3 v2) :
    VecCross m v1 v2 v3 v3 = m (v1 + 1) * m (v2 + 2) - m (v1 + 2) * m (v2 + 1)
      ∧ VecCross m v1 v2 v3 (v3 + 1) = m (v1 + 2) * m v2 - m v1 * m (v2 + 2)
      ∧ VecCross m v1 v2 v3 (v3 + 2) = m v1 * m (v2 + 1) - m (v1 + 1) * m v2
      ∧ ∀ a, (a < v3 ∨ v3 + 3 ≤ a) → VecCross m v1 v2 v3 a = m a := by
  unfold Separate at h1 h2
  unfold VecCross
  simp only [Nat.add_zero]
  refine ⟨?_, ?_, ?_, ?_⟩
  · rw [store_other _ _ _ _ (by omega), store_other _ _ _ _ (by omega), store_same]
  · rw [store_other _ _ _ _ (by omega), store_same,
      store_other _ _ _ _ (by omega), store_other _ _ _ _ (by omega),
      store_other _ _ _ _ (by omega), store_other _ _ _ _ (by omega)]
  · rw [store_same]
    repeat rw [store_other _ _ _ _ (by omega)]
  · intro a ha
    rw [store_other _ _ _ _ (by omega), store_other _ _ _ _ (by omega),
      store_other _ _ _ _ (by omega)]

theorem VecSub_cells {K : Type} [Field K] (m : Mem K) (v1 v2 v3 : Nat)
    (h1 : Separate v3 v1) (h2 : Separate v3 v2) :
    VecSub m v1 v2 v3 v3 = m v1 - m v2
      ∧ VecSub m v1 v2 v3 (v3 + 1) = m (v1 + 1) - m (v2 + 1)
      ∧ VecSub m v1 v2 v3 (v3 + 2) = m (v1 + 2) - m (v2 + 2)
      ∧ ∀ a, (a < v3 ∨ v3 + 3 ≤ a) → VecSub m v1 v2 v3 a = m a := by
  unfold Separate at h1 h2
  unfold VecSub
  simp only [Nat.add_zero]
  refine ⟨?_, ?_, ?_, ?_⟩
  · rw [store_other _ _ _ _ (by omega), store_other _ _ _ _ (by omega), store_same]
  · rw [store_other _ _ _ _ (by omega), store_same,
      store_other _ _ _ _ (by omega), store_other _ _ _ _ (by omega)]
  · rw [store_same]
    repeat rw [store_other _ _ _ _ (by omega)]
  · intro a ha
    rw [store_other _ _ _ _ (by omega), store_other _ _ _ _ (by omega),
      store_other _ _ _ _ (by omega)]

/-! ## The cross product -/

/-- C16, as the code has it: when the output buffer `v3` shares no cell with
`v1` or with `v2`, after `VecCross(v1, v2, v3)` the buffer `v3` holds the cross
product of `v1` and `v2`, and `v1` and `v2` hold what they held. -/
theorem VecCross_separate_output {K : Type} [Field K] (m : Mem K) (v1 v2 v3 : Nat)
    (h1 : Separate v3 v1) (h2 : Separate v3 v2) :
    load (VecCross m v1 v2 v3) v3 = crossProduct (load m v1) (load m v2)
      ∧ load (VecCross m v1 v2 v3) v3
          = (m (v1 + 1) * m (v2 + 2) - m (v1 + 2) * m (v2 + 1),
             m (v1 + 2) * m v2 - m v1 * m (v2 + 2),
             m v1 * m (v2 + 1) - m (v1 + 1) * m v2)
      ∧ load (VecCross m v1 v2 v3) v1 = load m v1
      ∧ load (VecCross m v1 v2 v3) v2 = load m v2 := by
  obtain ⟨c0, c1, c2, hrest⟩ := VecCross_cells m v1 v2 v3 h1 h2
  unfold Separate at h1 h2
  refine ⟨?_, ?_, ?_, ?_⟩
  · simp only [load, crossProduct, c0, c1, c2]
  · simp only [load, c0, c1, c2]
  · simp only [load]
    rw [hrest v1 (by omega), hrest (v1 + 1) (by omega), hrest (v1 + 2) (by omega)]
  · simp only [load]
    rw [hrest v2 (by omega), hrest (v2 + 1) (by omega), hrest (v2 + 2) (by omega)]

/-- C16, with `1, 0, 0` at address 0, `0, 1, 0` at address 3 and the output
at address 6. -/
theorem VecCross_separate_output_witness :
    Separate 6 0 ∧ Separate 6 3
      ∧ load (VecCross unitVectors 0 3 6) 6
          = crossProduct (load unitVectors 0) (load unitVectors 3) :=
  ⟨by decide, by decide,
    (VecCross_separate_output unitVectors 0 3 6 (by decide) (by decide)).1⟩

/-- C16 as stated fails: with `v1 = 1, 0, 0` and `v2 = 0, 1, 0`, whose cross
product is `0, 0, 1`, the call with `v3` the array `v1`, and the call with `v3`
the array `v2`, both leave `0, 0, 0` in `v3`. -/
theorem VecCross_aliased_output_wrong :
    crossProduct (load unitVectors 0) (load unitVectors 3) = (0, 0, 1)
      ∧ load (VecCross unitVectors 0 3 0) 0 = (0, 0, 0)
      ∧ load (VecCross unitVectors 0 3 3) 3 = (0, 0, 0)
      ∧ load (VecCross unitVectors 0 3 0) 0
          ≠ crossProduct (load unitVectors 0) (load unitVectors 3)
      ∧ load (VecCross unitVectors 0 3 3) 3
          ≠ crossProduct (load unitVectors 0) (load unitVectors 3) := by
  have hc : crossProduct (load unitVectors 0) (load unitVectors 3) = (0, 0, 1) := by
    simp [crossProduct, load, unitVectors]
  have ha : load (VecCross unitVectors 0 3 0) 0 = (0, 0, 0) := by
    simp [VecCross, store, load, unitVectors]
  have hb : load (VecCross unitVectors 0 3 3) 3 = (0, 0, 0) := by
    simp [VecCross, store, load, unitVectors]
  refine ⟨hc, ha, hb, ?_, ?_⟩
  · rw [ha, hc]; decide
  · rw [hb, hc]; decide

/-- C18: over exact arithmetic, when the output buffer `w` shares no cell with
`v1` or `v2`, the vector that `VecCross(v1, v2, w)` writes has `VecDot` zero
with `v1` and with `v2`, and `VecCross(v2, v1, w)` writes its negation,
component by component. -/
theorem VecCross_orthogonal_antisymmetric {K : Type} [Field K] (m : Mem K) (v1 v2 w : Nat)
    (h1 : Separate w v1) (h2 : Separate w v2) :
    VecDot (VecCross m v1 v2 w) v1 w = 0
      ∧ VecDot (VecCross m v1 v2 w) v2 w = 0
      ∧ VecCross m v2 v1 w w = - VecCross m v1 v2 w w
      ∧ VecCross m v2 v1 w (w + 1) = - VecCross m v1 v2 w (w + 1)
      ∧ VecCross m v2 v1 w (w + 2) = - VecCross m v1 v2 w (w + 2) := by
  obtain ⟨c0, c1, c2, hrest⟩ := VecCross_cells m v1 v2 w h1 h2
  obtain ⟨d0, d1, d2, -⟩ := VecCross_cells m v2 v1 w h2 h1
  unfold Separate at h1 h2
  refine ⟨?_, ?_, ?_, ?_, ?_⟩
  · simp only [VecDot, Nat.add_zero]
    rw [c0, c1, c2, hrest v1 (by omega), hrest (v1 + 1) (by omega), hrest (v1 + 2) (by omega)]
    ring
  · simp only [VecDot, Nat.add_zero]
    rw [c0, c1, c2, hrest v2 (by omega), hrest (v2 + 1) (by omega), hrest (v2 + 2) (by omega)]
    ring
  · rw [d0, c0]; ring
  · rw [d1, c1]; ring
  · rw [d2, c2]; ring

/-- C18, with `1, 0, 0` at address 0, `0, 1, 0` at address 3 and the output
at address 6. -/
theorem VecCross_orthogonal_antisymmetric_witness :
    Separate 6 0 ∧ Separate 6 3
      ∧ VecDot (VecCross unitVectors 0 3 6) 0 6 = 0
      ∧ VecDot (VecCross unitVectors 0 3 6) 3 6 = 0 :=
  have h := VecCross_orthogonal_antisymmetric unitVectors 0 3 6 (by decide) (by decide)
  ⟨by decide, by decide, h.1, h.2.1⟩
/-! ## Normalization -/

theorem VecNormalize_zero_divisor {K : Type} [Field K] [DecidableEq K] (sqrt : K → K)
    (m : Mem K) (v : Nat) (hd : VecNorm sqrt m v = 0) :
    VecNormalize sqrt m v = .divisionByZero := by
  unfold VecNormalize divAssign divide
  simp [hd, Outcome.bind]

theorem VecNormalize_nonzero_divisor {K : Type} [Field K] [DecidableEq K] (sqrt : K → K)
    (m : Mem K) (v : Nat) (hd : VecNorm sqrt m v ≠ 0) :
    ∃ m', VecNormalize sqrt m v = .value (VecNorm sqrt m v, m')
      ∧ m' v = m v / VecNorm sqrt m v
      ∧ m' (v + 1) = m (v + 1) / VecNorm sqrt m v
      ∧ m' (v + 2) = m (v + 2) / VecNorm sqrt m v
      ∧ ∀ a, (a < v ∨ v + 3 ≤ a) → m' a = m a := by
  refine ⟨store (store (store m v (m v / VecNorm sqrt m v)) (v + 1)
    (m (v + 1) / VecNorm sqrt m v)) (v + 2) (m (v + 2) / VecNorm sqrt m v), ?_, ?_, ?_, ?_, ?_⟩
  · unfold VecNormalize divAssign divide
    simp only [Nat.add_zero, if_neg hd, Outcome.bind]
    rw [store_other _ _ _ _ (by omega : v + 1 ≠ v), store_other _ _ _ _ (by omega : v + 2 ≠ v + 1),
      store_other _ _ _ _ (by omega : v + 2 ≠ v)]
  · rw [store_other _ _ _ _ (by omega), store_other _ _ _ _ (by omega), store_same]
  · rw [store_other _ _ _ _ (by omega), store_same]
  · rw [store_same]
  · intro a ha
    rw [store_other _ _ _ _ (by omega), store_other _ _ _ _ (by omega),
      store_other _ _ _ _ (by omega)]

theorem VecDot_self_nonneg (m : Mem ℝ) (v : Nat) : 0 ≤ VecDot m v v := by
  unfold VecDot
  nlinarith [mul_self_nonneg (m (v + 0)), mul_self_nonneg (m (v + 1)),
    mul_self_nonneg (m (v + 2))]

theorem VecDot_self_eq_zero (m : Mem ℝ) (v : Nat) :
    VecDot m v v = 0 ↔ load m v = (0, 0, 0) := by
  unfold VecDot load
  simp only [Nat.add_zero, Prod.mk.injEq]
  constructor
  · intro h
    have h0 := mul_self_nonneg (m v)
    have h1 := mul_self_nonneg (m (v + 1))
    have h2 := mul_self_nonneg (m (v + 2))
    refine ⟨?_, ?_, ?_⟩
    · exact mul_self_eq_zero.mp (by linarith)
    · exact mul_self_eq_zero.mp (by linarith)
    · exact mul_self_eq_zero.mp (by linarith)
  · rintro ⟨h0, h1, h2⟩
    rw [h0, h1, h2]
    ring

theorem VecNorm_eq_zero (m : Mem ℝ) (v : Nat) :
    VecNorm Real.sqrt m v = 0 ↔ load m v = (0, 0, 0) := by
  unfold VecNorm
  rw [Real.sqrt_eq_zero (VecDot_self_nonneg m v)]
  exact VecDot_self_eq_zero m v

/-- C13: over the reals, for a vector `v` that is not the zero vector,
`VecNormalize(v)` returns `sqrt(VecDot(v,v))`, which is positive, and leaves in
`v` each original component divided by it: afterwards `VecNorm2(v) = 1`, and
`v` is the original vector times the positive factor `1/d`; no other cell
changes. -/
theorem VecNormalize_unit (m : Mem ℝ) (v : Nat) (hv : load m v ≠ (0, 0, 0)) :
    ∃ d m', VecNormalize Real.sqrt m v = .value (d, m')
      ∧ d = Real.sqrt (VecDot m v v) ∧ 0 < d
      ∧ load m' v = (m v / d, m (v + 1) / d, m (v + 2) / d)
      ∧ VecNorm2 m' v = 1
      ∧ (∃ c, 0 < c ∧ load m' v = (c * m v, c * m (v + 1), c * m (v + 2)))
      ∧ ∀ a, (a < v ∨ v + 3 ≤ a) → m' a = m a := by
  have hd : VecNorm Real.sqrt m v ≠ 0 := fun h => hv ((VecNorm_eq_zero m v).mp h)
  obtain ⟨m', hN, e0, e1, e2, hrest⟩ := VecNormalize_nonzero_divisor Real.sqrt m v hd
  have hpos : 0 < VecNorm Real.sqrt m v :=
    lt_of_le_of_ne (Real.sqrt_nonneg _) (Ne.symm hd)
  have hsq : VecNorm Real.sqrt m v * VecNorm Real.sqrt m v = VecDot m v v :=
    Real.mul_self_sqrt (VecDot_self_nonneg m v)
  refine ⟨VecNorm Real.sqrt m v, m', hN, rfl, hpos, ?_, ?_, ?_, hrest⟩
  · simp only [load, e0, e1, e2]
  · unfold VecNorm2 VecDot
    simp only [Nat.add_zero]
    rw [e0, e1, e2]
    have hdot : m v * m v + m (v + 1) * m (v + 1) + m (v + 2) * m (v + 2)
        = VecNorm Real.sqrt m v * VecNorm Real.sqrt m v := by
      rw [hsq]; simp [VecDot]
    field_simp
    linarith [hdot]
  · refine ⟨1 / VecNorm Real.sqrt m v, by positivity, ?_⟩
    simp only [load, e0, e1, e2]
    simp only [Prod.mk.injEq]
    refine ⟨?_, ?_, ?_⟩ <;> field_simp

/-- C13, at the vector `3, 4, 0`. -/
theorem VecNormalize_unit_witness :
    load (threeFour : Mem ℝ) 0 ≠ (0, 0, 0)
      ∧ ∃ d m', VecNormalize Real.sqrt (threeFour : Mem ℝ) 0 = .value (d, m')
        ∧ VecNorm2 m' 0 = 1 :=
  have hv : load (threeFour : Mem ℝ) 0 ≠ (0, 0, 0) := by simp [load, threeFour]
  have h := VecNormalize_unit (threeFour : Mem ℝ) 0 hv
  ⟨hv, h.elim fun d hd => hd.elim fun m' hm => ⟨d, m', hm.1, hm.2.2.2.2.1⟩⟩

/-- C15: over the reals, `VecNormalize(v)` has no guard on its divisor: it
ends in a division by zero exactly when `v` is the zero vector, which is
exactly when its divisor `sqrt(VecDot(v,v))` is zero; it never ends by
reporting an error; and it returns, the value returned being that non-zero
divisor, exactly when `v` is not the zero vector. -/
theorem VecNormalize_divides_by_zero_iff (m : Mem ℝ) (v : Nat) :
    (VecNormalize Real.sqrt m v = .divisionByZero ↔ load m v = (0, 0, 0))
      ∧ (VecNormalize Real.sqrt m v = .divisionByZero ↔ VecNorm Real.sqrt m v = 0)
      ∧ (∀ message, VecNormalize Real.sqrt m v ≠ .exited message)
      ∧ ((∃ d m', VecNormalize Real.sqrt m v = .value (d, m')) ↔ load m v ≠ (0, 0, 0))
      ∧ (∀ d m', VecNormalize Real.sqrt m v = .value (d, m') →
          d = VecNorm Real.sqrt m v ∧ d ≠ 0) := by
  have hz := VecNorm_eq_zero m v
  have hcases : (VecNorm Real.sqrt m v = 0 ∧ VecNormalize Real.sqrt m v = .divisionByZero)
      ∨ (VecNorm Real.sqrt m v ≠ 0
          ∧ ∃ m', VecNormalize Real.sqrt m v = .value (VecNorm Real.sqrt m v, m')) := by
    by_cases hd : VecNorm Real.sqrt m v = 0
    · exact Or.inl ⟨hd, VecNormalize_zero_divisor Real.sqrt m v hd⟩
    · obtain ⟨m', hN, -⟩ := VecNormalize_nonzero_divisor Real.sqrt m v hd
      exact Or.inr ⟨hd, m', hN⟩
  have hdz : VecNormalize Real.sqrt m v = .divisionByZero ↔ VecNorm Real.sqrt m v = 0 := by
    rcases hcases with ⟨hd, hN⟩ | ⟨hd, m', hN⟩
    · exact ⟨fun _ => hd, fun _ => hN⟩
    · rw [hN]
      exact ⟨fun h => Outcome.noConfusion h, fun h => absurd h hd⟩
  refine ⟨hdz.trans hz, hdz, ?_, ?_, ?_⟩
  · intro message
    rcases hcases with ⟨hd, hN⟩ | ⟨hd, m', hN⟩ <;> rw [hN] <;> exact fun h => Outcome.noConfusion h
  · rw [← not_iff_not, not_not, ← hz]
    rcases hcases with ⟨hd, hN⟩ | ⟨hd, m', hN⟩
    · rw [hN]
      exact ⟨fun _ => hd, fun _ ⟨d, m2, h⟩ => Outcome.noConfusion h⟩
    · exact ⟨fun h => absurd ⟨_, m', hN⟩ h, fun h => absurd h hd⟩
  · intro d m2 h
    rcases hcases with ⟨hd, hN⟩ | ⟨hd, m', hN⟩
    · rw [hN] at h
      exact Outcome.noConfusion h
    · rw [hN] at h
      have hinj := Outcome.value.inj h
      have hdeq : VecNorm Real.sqrt m v = d := (Prod.mk.inj hinj).1
      rw [← hdeq]
      exact ⟨rfl, hd⟩

/-! ## Allocation -/

/-- C17: whatever number of nested calls is allowed, `mallocEC(size)` does not
end: its first statement is a call of `mallocEC(size)` itself, so the test of
`p` and the `return` are never reached. -/
theorem mallocEC_never_ends (depth : Nat) (size : Int) : mallocEC depth size = none := by
  induction depth with
  | zero => rfl
  | succ depth ih =>
    unfold mallocEC
    rw [ih]

/-! ## Distances -/

theorem VecDistance2_eq {K : Type} [Field K] (m : Mem K) (v1 v2 v3 : Nat)
    (h1 : Separate v3 v1) (h2 : Separate v3 v2) :
    VecDistance2 m v1 v2 v3
      = (m v1 - m v2) * (m v1 - m v2) + (m (v1 + 1) - m (v2 + 1)) * (m (v1 + 1) - m (v2 + 1))
        + (m (v1 + 2) - m (v2 + 2)) * (m (v1 + 2) - m (v2 + 2)) := by
  obtain ⟨c0, c1, c2, -⟩ := VecSub_cells m v1 v2 v3 h1 h2
  unfold VecDistance2 VecDot
  simp only [Nat.add_zero]
  rw [c0, c1, c2]

/-- C19: over the reals, with the local array `v3` sharing no cell with `v1`
or `v2`, `VecDistance2(v1, v2)` is `VecNorm2` of any vector holding the
componentwise difference `v1 - v2`; it is symmetric, non-negative, zero exactly
when `v1` and `v2` hold the same values; and the square of
`VecDistance(v1, v2)` is `VecDistance2(v1, v2)`. -/
theorem VecDistance2_metric (m : Mem ℝ) (v1 v2 v3 : Nat)
    (h1 : Separate v3 v1) (h2 : Separate v3 v2) :
    (∀ (m' : Mem ℝ) (w : Nat),
        load m' w = (m v1 - m v2, m (v1 + 1) - m (v2 + 1), m (v1 + 2) - m (v2 + 2)) →
        VecDistance2 m v1 v2 v3 = VecNorm2 m' w)
      ∧ VecDistance2 m v1 v2 v3 = VecNorm2 (VecSub m v1 v2 v3) v3
      ∧ VecDistance2 m v1 v2 v3 = VecDistance2 m v2 v1 v3
      ∧ 0 ≤ VecDistance2 m v1 v2 v3
      ∧ (VecDistance2 m v1 v2 v3 = 0 ↔ load m v1 = load m v2)
      ∧ VecDistance Real.sqrt m v1 v2 v3 * VecDistance Real.sqrt m v1 v2 v3
          = VecDistance2 m v1 v2 v3 := by
  have he := VecDistance2_eq m v1 v2 v3 h1 h2
  have he' := VecDistance2_eq m v2 v1 v3 h2 h1
  have hnn : 0 ≤ VecDistance2 m v1 v2 v3 := VecDot_self_nonneg _ _
  refine ⟨?_, rfl, ?_, hnn, ?_, ?_⟩
  · intro m' w hw
    simp only [load, Prod.mk.injEq] at hw
    obtain ⟨w0, w1, w2⟩ := hw
    rw [he]
    unfold VecNorm2 VecDot
    simp only [Nat.add_zero]
    rw [w0, w1, w2]
  · rw [he, he']
    ring
  · rw [he]
    simp only [load, Prod.mk.injEq]
    constructor
    · intro h
      have a0 := mul_self_nonneg (m v1 - m v2)
      have a1 := mul_self_nonneg (m (v1 + 1) - m (v2 + 1))
      have a2 := mul_self_nonneg (m (v1 + 2) - m (v2 + 2))
      refine ⟨?_, ?_, ?_⟩
      · exact sub_eq_zero.mp (mul_self_eq_zero.mp (by linarith))
      · exact sub_eq_zero.mp (mul_self_eq_zero.mp (by linarith))
      · exact sub_eq_zero.mp (mul_self_eq_zero.mp (by linarith))
    · rintro ⟨e0, e1, e2⟩
      rw [e0, e1, e2]
      ring
  · show Real.sqrt (VecDot (VecSub m v1 v2 v3) v3 v3)
        * Real.sqrt (VecDot (VecSub m v1 v2 v3) v3 v3) = VecDot (VecSub m v1 v2 v3) v3 v3
    exact Real.mul_self_sqrt (VecDot_self_nonneg _ _)

/-- C19, with `3, 4, 0` at address 0, `0, 0, 0` at address 3 and the local
array at address 6. -/
theorem VecDistance2_metric_witness :
    Separate 6 0 ∧ Separate 6 3
      ∧ VecDistance2 (threeFour : Mem ℝ) 0 3 6 = VecDistance2 (threeFour : Mem ℝ) 3 0 6
      ∧ 0 ≤ VecDistance2 (threeFour : Mem ℝ) 0 3 6 :=
  have h := VecDistance2_metric (threeFour : Mem ℝ) 0 3 6 (by decide) (by decide)
  ⟨by decide, by decide, h.2.2.1, h.2.2.2.1⟩

/-! ## Relative difference -/

theorem abs_add_abs_eq_zero {K : Type} [LinearOrderedField K] (x y : K) :
    |x| + |y| = 0 ↔ x = 0 ∧ y = 0 := by
  constructor
  · intro h
    have hx := abs_nonneg x
    have hy := abs_nonneg y
    exact ⟨abs_eq_zero.mp (by linarith), abs_eq_zero.mp (by linarith)⟩
  · rintro ⟨hx, hy⟩
    rw [hx, hy]
    simp

/-- C20: in an ordered field, so over the reals, for `x, y` not both zero the
denominator `|x| + |y|` of `RelDiff(x, y)` is not zero and the value is
`2|x-y| / (|x|+|y|)`; it is the value of `RelDiff(y, x)`, lies between 0 and 2,
and is 0 exactly when `x = y`.  The denominator is zero exactly when
`x = y = 0`, and that is the one input at which `RelDiff` divides by zero. -/
theorem RelDiff_bounds {K : Type} [LinearOrderedField K] (x y : K)
    (hxy : ¬ (x = 0 ∧ y = 0)) :
    |x| + |y| ≠ 0
      ∧ (∃ r, RelDiff x y = some r ∧ r = 2 * |x - y| / (|x| + |y|)
          ∧ RelDiff y x = some r ∧ 0 ≤ r ∧ r ≤ 2 ∧ (r = 0 ↔ x = y))
      ∧ (∀ a b : K, |a| + |b| = 0 ↔ a = 0 ∧ b = 0)
      ∧ (∀ a b : K, RelDiff a b = none ↔ a = 0 ∧ b = 0) := by
  have hden : |x| + |y| ≠ 0 := fun h => hxy ((abs_add_abs_eq_zero x y).mp h)
  have hpos : 0 < |x| + |y| :=
    lt_of_le_of_ne (add_nonneg (abs_nonneg x) (abs_nonneg y)) (Ne.symm hden)
  have hnone : ∀ a b : K, RelDiff a b = none ↔ a = 0 ∧ b = 0 := by
    intro a b
    unfold RelDiff divide
    rw [← abs_add_abs_eq_zero a b]
    split_ifs with h <;> simp [h]
  refine ⟨hden, ⟨2 * |x - y| / (|x| + |y|), ?_, rfl, ?_, ?_, ?_, ?_⟩,
    abs_add_abs_eq_zero, hnone⟩
  · unfold RelDiff divide
    rw [if_neg hden]
  · unfold RelDiff divide
    rw [if_neg (by rw [add_comm]; exact hden), abs_sub_comm y x, add_comm |y| |x|]
  · exact div_nonneg (mul_nonneg (by norm_num) (abs_nonneg _)) hpos.le
  · rw [div_le_iff₀ hpos]
    have := abs_sub x y
    linarith
  · rw [div_eq_zero_iff]
    constructor
    · rintro (h | h)
      · have h' : |x - y| = 0 := by
          rcases mul_eq_zero.mp h with h2 | h2
          · norm_num at h2
          · exact h2
        exact sub_eq_zero.mp (abs_eq_zero.mp h')
      · exact absurd h hden
    · intro h
      left
      rw [h, sub_self, abs_zero, mul_zero]

/-- C20, at `x = 1, y = 3` over the rationals. -/
theorem RelDiff_bounds_witness :
    ¬ ((1 : ℚ) = 0 ∧ (3 : ℚ) = 0)
      ∧ ∃ r, RelDiff (1 : ℚ) 3 = some r ∧ 0 ≤ r ∧ r ≤ 2 :=
  have hxy : ¬ ((1 : ℚ) = 0 ∧ (3 : ℚ) = 0) := by decide
  have h := RelDiff_bounds (1 : ℚ) 3 hxy
  ⟨hxy, h.2.1.elim fun r hr => ⟨r, hr.1, hr.2.2.2.1, hr.2.2.2.2.1⟩⟩

end scuff
